import Mathlib

set_option maxHeartbeats 1000000

/-- One block of the simulated heap: a contiguous run of addresses with an
allocation flag and doubly linked neighbor references, mirroring the `Block`
class of the source. Neighbor references are indices into the allocator
block store (modelling Python object references). -/
structure Block where
  start : Int
  size : Int
  free : Bool
  prev : Option Nat
  next : Option Nat
deriving DecidableEq

instance : Inhabited Block := ⟨⟨0, 0, true, none, none⟩⟩

/-- The allocator object: the fixed capacity, the store of every `Block`
object ever created (index = object identity; blocks absorbed by coalescing
stay in the store but leave the linked chain, exactly as unreferenced Python
objects survive while external handles still point at them), and the index
of the head block. -/
structure MemoryAllocator where
  total_memory : Int
  blocks : List Block
  head : Nat
deriving DecidableEq

/-- Reading a field of the block object at index `i` (out of range reads a
default and never occurs in the executions we reason about). -/
def getBlock (a : MemoryAllocator) (i : Nat) : Block := a.blocks.getD i default

/-- Mutating the block object at index `i`. -/
def setBlock (a : MemoryAllocator) (i : Nat) (b : Block) : MemoryAllocator :=
  { a with blocks := a.blocks.set i b }

/-- `MemoryAllocator.__init__`: a single free block spanning the whole range.
The source performs no validation of `total_memory`. -/
def MemoryAllocator.init (total_memory : Int) : MemoryAllocator :=
  { total_memory := total_memory
    blocks := [{ start := 0, size := total_memory, free := true, prev := none, next := none }]
    head := 0 }

/-- `MemoryAllocator._allocate_block`, statement by statement: exact fit
marks the block used in place; otherwise a remainder block is created at
`start + size`, spliced in right after the matched block, and the matched
block is shrunk to `size` and marked used. Returns the mutated allocator
and the returned block (its index). -/
def MemoryAllocator.allocate_block (a : MemoryAllocator) (i : Nat) (size : Int) :
    MemoryAllocator × Nat :=
  let b := getBlock a i
  if b.size = size then
    (setBlock a i { b with free := false }, i)
  else
    let n := a.blocks.length
    let nb : Block :=
      { start := b.start + size, size := b.size - size, free := true
        prev := some i, next := b.next }
    let a1 : MemoryAllocator := { a with blocks := a.blocks ++ [nb] }
    let a2 :=
      match (getBlock a1 i).next with
      | some j => setBlock a1 j { getBlock a1 j with prev := some n }
      | none => a1
    (setBlock a2 i { getBlock a2 i with next := some n, size := size, free := false }, i)

/-- The scan loop of `MemoryAllocator.first_fit`: walk the chain from
`cur`, allocate from the first free block whose size is at least `size`.
Fuel bounds the walk; it is always at least the chain length in the states
we reason about, so the loop is never cut short there. -/
def first_fit_loop (a : MemoryAllocator) (size : Int) : Option Nat → Nat → MemoryAllocator × Option Nat
  | none, _ => (a, none)
  | some _, 0 => (a, none)
  | some i, fuel + 1 =>
    if (getBlock a i).free = true ∧ size ≤ (getBlock a i).size then
      ((a.allocate_block i size).1, some (a.allocate_block i size).2)
    else first_fit_loop a size (getBlock a i).next fuel

/-- `MemoryAllocator.first_fit`: scan from the head block. -/
def MemoryAllocator.first_fit (a : MemoryAllocator) (size : Int) : MemoryAllocator × Option Nat :=
  first_fit_loop a size (some a.head) a.blocks.length

/-- The successor-coalescing half of `MemoryAllocator.free_block`
(`if block.next and block.next.free:` in the source), statement by
statement with every field re-read at its Python read point. -/
def mergeNext (a : MemoryAllocator) (i : Nat) : MemoryAllocator :=
  match (getBlock a i).next with
  | none => a
  | some j =>
    if (getBlock a j).free then
      let a1 := setBlock a i { getBlock a i with size := (getBlock a i).size + (getBlock a j).size }
      let a2 := setBlock a1 i { getBlock a1 i with next := (getBlock a1 j).next }
      match (getBlock a2 i).next with
      | some k => setBlock a2 k { getBlock a2 k with prev := some i }
      | none => a2
    else a

/-- The predecessor-coalescing half of `MemoryAllocator.free_block`
(`if block.prev and block.prev.free:` in the source). -/
def mergePrev (a : MemoryAllocator) (i : Nat) : MemoryAllocator :=
  match (getBlock a i).prev with
  | none => a
  | some p =>
    if (getBlock a p).free then
      let a1 := setBlock a p { getBlock a p with size := (getBlock a p).size + (getBlock a i).size }
      let a2 := setBlock a1 p { getBlock a1 p with next := (getBlock a1 i).next }
      match (getBlock a2 i).next with
      | some k => setBlock a2 k { getBlock a2 k with prev := (getBlock a2 i).prev }
      | none => a2
    else a

/-- `MemoryAllocator.free_block`: mark the block free, then coalesce with a
free successor, then with a free predecessor. The source validates nothing
about the argument. -/
def MemoryAllocator.free_block (a : MemoryAllocator) (i : Nat) : MemoryAllocator :=
  mergePrev (mergeNext (setBlock a i { getBlock a i with free := true }) i) i

/-- The walk of `print_memory`, following `next` from a cursor with fuel. -/
def traverseAux (a : MemoryAllocator) : Option Nat → Nat → List Block
  | none, _ => []
  | some _, 0 => []
  | some i, fuel + 1 => getBlock a i :: traverseAux a (getBlock a i).next fuel

/-- The diagnostic traversal of the block sequence, as `print_memory`
walks it: from the head block along `next`. -/
def traverse (a : MemoryAllocator) : List Block :=
  traverseAux a (some a.head) a.blocks.length

/-- What the traversal exposes about one block: start, size, free flag. -/
structure BlockView where
  start : Int
  size : Int
  free : Bool
deriving DecidableEq

def Block.view (b : Block) : BlockView := ⟨b.start, b.size, b.free⟩

/-- The (start, size, free) tuples of the current block sequence, in
traversal order. -/
def traverseView (a : MemoryAllocator) : List BlockView := (traverse a).map Block.view

/-- `LinkedChain a p cur is`: starting from cursor `cur`, whose predecessor
reference is `p`, the doubly linked block structure of `a` traverses exactly
the index list `is` and then ends. This is the well-formedness skeleton of
the allocator state. -/
def LinkedChain (a : MemoryAllocator) : Option Nat → Option Nat → List Nat → Prop
  | _, cur, [] => cur = none
  | p, cur, i :: is =>
      cur = some i ∧ (getBlock a i).prev = p ∧ i < a.blocks.length ∧
        LinkedChain a (some i) (getBlock a i).next is

instance linkedChainDec (a : MemoryAllocator) :
    ∀ (p cur : Option Nat) (is : List Nat), Decidable (LinkedChain a p cur is)
  | _, cur, [] => decidable_of_iff (cur = none) Iff.rfl
  | p, cur, i :: is =>
    have : Decidable (LinkedChain a (some i) (getBlock a i).next is) := linkedChainDec a _ _ is
    decidable_of_iff (cur = some i ∧ (getBlock a i).prev = p ∧ i < a.blocks.length ∧
      LinkedChain a (some i) (getBlock a i).next is) Iff.rfl

/-- The (start, size, free) views of the blocks at the given indices. -/
def viewOf (a : MemoryAllocator) (is : List Nat) : List BlockView :=
  is.map fun i => (getBlock a i).view

/-- The blocks partition the address range starting at `s` with zero gaps:
each block starts where the previous one ends. -/
def contigFrom : Int → List BlockView → Prop
  | _, [] => True
  | s, b :: l => b.start = s ∧ contigFrom (s + b.size) l

instance contigFromDec : ∀ (s : Int) (l : List BlockView), Decidable (contigFrom s l)
  | _, [] => isTrue trivial
  | s, b :: l =>
    have : Decidable (contigFrom (s + b.size) l) := contigFromDec _ l
    decidable_of_iff (b.start = s ∧ contigFrom (s + b.size) l) Iff.rfl

def sumSizes (l : List BlockView) : Int := (l.map BlockView.size).sum

/-- Every block has strictly positive size. -/
def allPos (l : List BlockView) : Prop := ∀ b ∈ l, 0 < b.size

instance (l : List BlockView) : Decidable (allPos l) := by unfold allPos; infer_instance

/-- Two neighbors are never both free. -/
def freeSep (x y : BlockView) : Prop := x.free = false ∨ y.free = false

instance (x y : BlockView) : Decidable (freeSep x y) := by unfold freeSep; infer_instance

def noAdjFree (l : List BlockView) : Prop := List.Chain' freeSep l

instance (l : List BlockView) : Decidable (noAdjFree l) := by unfold noAdjFree; infer_instance

/-- The arena invariants of the spec, over the exposed block views:
nonempty partition of [0, tm) with zero gaps, conservation, positive sizes,
and no two adjacent free blocks. -/
def Good (tm : Int) (l : List BlockView) : Prop :=
  l ≠ [] ∧ contigFrom 0 l ∧ sumSizes l = tm ∧ allPos l ∧ noAdjFree l

instance (tm : Int) (l : List BlockView) : Decidable (Good tm l) := by
  unfold Good; infer_instance

/-- A driver state: the allocator plus the outstanding handles (the
`allocated` list of the source driver, as block indices). -/
structure SimState where
  heap : MemoryAllocator
  handles : List Nat

def pushHandle (hs : List Nat) : Option Nat → List Nat
  | some i => hs ++ [i]
  | none => hs

/-- States reachable by proper use of the public interface: the arena is
built with positive capacity, every allocation requests a positive size,
and every release is of an outstanding handle (returned by a successful
allocate and not released since). -/
inductive Reach (tm : Int) : SimState → Prop where
  | init : 0 < tm → Reach tm ⟨MemoryAllocator.init tm, []⟩
  | alloc (s : SimState) (size : Int) : Reach tm s → 0 < size →
      Reach tm ⟨(s.heap.first_fit size).1, pushHandle s.handles (s.heap.first_fit size).2⟩
  | rel (s : SimState) (k : Nat) (hk : k < s.handles.length) : Reach tm s →
      Reach tm ⟨s.heap.free_block (s.handles.get ⟨k, hk⟩), s.handles.eraseIdx k⟩

/-- The full invariant carried through the reachability induction: some
index list is the chain, its views satisfy the arena invariants, and the
outstanding handles are pairwise distinct chain members marked used. -/
def WFS (s : SimState) : Prop :=
  ∃ is, LinkedChain s.heap none (some s.heap.head) is ∧
    Good s.heap.total_memory (viewOf s.heap is) ∧
    s.handles.Nodup ∧
    ∀ k ∈ s.handles, k ∈ is ∧ (getBlock s.heap k).free = false

/- Concrete scenario states used by the concrete claims. -/

/-- Round trip scenario, step 1: allocate 40 out of a fresh 100-unit arena. -/
def s9a : MemoryAllocator × Option Nat := (MemoryAllocator.init 100).first_fit 40

/-- Round trip scenario, step 2: allocate 30. -/
def s9b : MemoryAllocator × Option Nat := s9a.1.first_fit 30

/-- Round trip scenario, step 3: release the first handle (block index 0). -/
def s9c : MemoryAllocator := s9b.1.free_block 0

/-- Round trip scenario, step 4: allocate 35. -/
def s9d : MemoryAllocator × Option Nat := s9c.first_fit 35

/-- Stale-handle scenario: allocate 40 (handle 0) and 30 (handle 1) from a
100-unit arena, release handle 1 (it coalesces with the tail free block),
then release handle 0 (absorbing block 1, so handle 1 goes stale). -/
def s3a : MemoryAllocator × Option Nat := (MemoryAllocator.init 100).first_fit 40

def s3b : MemoryAllocator × Option Nat := s3a.1.first_fit 30

def s3c : MemoryAllocator := s3b.1.free_block 1

def s3d : MemoryAllocator := s3c.free_block 0

/-- Stale-handle scenario: releasing the absorbed handle 1 a second time. -/
def s3e : MemoryAllocator := s3d.free_block 1

/-- A fragmented arena: free blocks of size 10 at 0 and 20 around a used
block, 20 units free in total but no single free block of size 15. -/
def c5heap : MemoryAllocator :=
  ⟨30, [⟨0, 10, true, none, some 1⟩, ⟨10, 10, false, some 0, some 2⟩,
    ⟨20, 10, true, some 1, none⟩], 0⟩

/-- The first-fit scenario arena of the spec: used [0,10), free [10,30),
used [30,35), free [35,85). -/
def c6heap : MemoryAllocator :=
  ⟨85, [⟨0, 10, false, none, some 1⟩, ⟨10, 20, true, some 0, some 2⟩,
    ⟨30, 5, false, some 1, some 3⟩, ⟨35, 50, true, some 2, none⟩], 0⟩

/-- A coalescing scenario arena: free [0,10), used [10,15), free [15,35). -/
def c8heap : MemoryAllocator :=
  ⟨35, [⟨0, 10, true, none, some 1⟩, ⟨10, 5, false, some 0, some 2⟩,
    ⟨15, 20, true, some 1, none⟩], 0⟩

/- Basic store lemmas. -/

theorem length_setBlock (a : MemoryAllocator) (i : Nat) (b : Block) :
    (setBlock a i b).blocks.length = a.blocks.length := List.length_set ..

theorem head_setBlock (a : MemoryAllocator) (i : Nat) (b : Block) :
    (setBlock a i b).head = a.head := rfl

theorem tm_setBlock (a : MemoryAllocator) (i : Nat) (b : Block) :
    (setBlock a i b).total_memory = a.total_memory := rfl

theorem getBlock_setBlock_self {a : MemoryAllocator} {i : Nat} (b : Block)
    (hi : i < a.blocks.length) : getBlock (setBlock a i b) i = b := by
  simp [getBlock, setBlock, List.getD_eq_getElem?_getD, List.getElem?_set_self', hi]

theorem getBlock_setBlock_ne {a : MemoryAllocator} {i j : Nat} (b : Block)
    (h : j ≠ i) : getBlock (setBlock a i b) j = getBlock a j := by
  simp [getBlock, setBlock, List.getD_eq_getElem?_getD,
    List.getElem?_set_ne (fun hh => h hh.symm)]

theorem getBlock_append_lt {a : MemoryAllocator} (b : Block) {i : Nat}
    (hi : i < a.blocks.length) :
    getBlock { a with blocks := a.blocks ++ [b] } i = getBlock a i := by
  simp [getBlock, List.getD_eq_getElem?_getD, List.getElem?_append_left hi]

theorem getBlock_append_self (a : MemoryAllocator) (b : Block) :
    getBlock { a with blocks := a.blocks ++ [b] } a.blocks.length = b := by
  simp [getBlock, List.getD_eq_getElem?_getD]

/- Chain structure lemmas. -/

theorem linkedChain_nil {a : MemoryAllocator} {p cur : Option Nat} :
    LinkedChain a p cur [] ↔ cur = none := Iff.rfl

theorem linkedChain_cons {a : MemoryAllocator} {p cur : Option Nat} {i : Nat} {is : List Nat} :
    LinkedChain a p cur (i :: is) ↔
      cur = some i ∧ (getBlock a i).prev = p ∧ i < a.blocks.length ∧
        LinkedChain a (some i) (getBlock a i).next is := Iff.rfl

theorem LinkedChain.bound {a : MemoryAllocator} :
    ∀ {is : List Nat} {p cur : Option Nat},
      LinkedChain a p cur is → ∀ i ∈ is, i < a.blocks.length := by
  intro is
  induction is with
  | nil => intro p cur _ i hi; cases hi
  | cons j tl ih =>
    intro p cur hc i hi
    rw [linkedChain_cons] at hc
    rcases List.mem_cons.mp hi with rfl | hm
    · exact hc.2.2.1
    · exact ih hc.2.2.2 i hm

theorem LinkedChain.shape {a : MemoryAllocator} :
    ∀ {is is' : List Nat} {p p' cur : Option Nat},
      LinkedChain a p cur is → LinkedChain a p' cur is' → is = is' := by
  intro is
  induction is with
  | nil =>
    intro is' p p' cur h h'
    rw [linkedChain_nil] at h
    subst h
    cases is' with
    | nil => rfl
    | cons j tl => rw [linkedChain_cons] at h'; exact absurd h'.1 (by simp)
  | cons i tl ih =>
    intro is' p p' cur h h'
    rw [linkedChain_cons] at h
    obtain ⟨hcur, _, _, htl⟩ := h
    cases is' with
    | nil =>
      rw [linkedChain_nil] at h'
      rw [h'] at hcur
      exact absurd hcur (by simp)
    | cons j tl' =>
      rw [linkedChain_cons] at h'
      obtain ⟨hcur', _, _, htl'⟩ := h'
      rw [hcur] at hcur'
      obtain rfl : i = j := Option.some.inj hcur'
      rw [ih htl htl']

theorem linkedChain_suffix {a : MemoryAllocator} :
    ∀ (u : List Nat) {p cur : Option Nat} {j : Nat} {v : List Nat},
      LinkedChain a p cur (u ++ j :: v) → ∃ p', LinkedChain a p' (some j) (j :: v) := by
  intro u
  induction u with
  | nil =>
    intro p cur j v h
    simp only [List.nil_append] at h
    rw [linkedChain_cons] at h
    obtain ⟨rfl, h2, h3, h4⟩ := h
    exact ⟨p, linkedChain_cons.mpr ⟨rfl, h2, h3, h4⟩⟩
  | cons x u ih =>
    intro p cur j v h
    simp only [List.cons_append] at h
    rw [linkedChain_cons] at h
    exact ih h.2.2.2

theorem LinkedChain.nodup {a : MemoryAllocator} :
    ∀ {is : List Nat} {p cur : Option Nat}, LinkedChain a p cur is → is.Nodup := by
  intro is
  induction is with
  | nil => intro p cur _; exact List.nodup_nil
  | cons i tl ih =>
    intro p cur h
    rw [linkedChain_cons] at h
    obtain ⟨hcur, hprev, hlt, htl⟩ := h
    refine List.nodup_cons.mpr ⟨?_, ih htl⟩
    intro hmem
    obtain ⟨l1, l2, rfl⟩ := List.append_of_mem hmem
    have hfull : LinkedChain a p cur ((i :: l1) ++ i :: l2) := by
      simp only [List.cons_append]
      exact linkedChain_cons.mpr ⟨hcur, hprev, hlt, htl⟩
    obtain ⟨p', hsuf⟩ := linkedChain_suffix (i :: l1) hfull
    have htl' : LinkedChain a p (some i) (i :: (l1 ++ i :: l2)) :=
      linkedChain_cons.mpr ⟨rfl, hprev, hlt, htl⟩
    have := LinkedChain.shape htl' hsuf
    have hlen := congrArg List.length this
    simp at hlen
    omega

theorem LinkedChain.length_le {a : MemoryAllocator} {is : List Nat} {p cur : Option Nat}
    (h : LinkedChain a p cur is) : is.length ≤ a.blocks.length := by
  have hnd := h.nodup
  have hb := h.bound
  calc is.length = is.toFinset.card := (List.toFinset_card_of_nodup hnd).symm
    _ ≤ (Finset.range a.blocks.length).card := by
        refine Finset.card_le_card fun x hx => ?_
        simp only [List.mem_toFinset] at hx
        simpa [Finset.mem_range] using hb x hx
    _ = a.blocks.length := Finset.card_range _

theorem linkedChain_mono {a a' : MemoryAllocator} (hlen : a.blocks.length ≤ a'.blocks.length) :
    ∀ {is : List Nat} {p cur : Option Nat},
      (∀ i ∈ is, getBlock a' i = getBlock a i) → LinkedChain a p cur is → LinkedChain a' p cur is := by
  intro is
  induction is with
  | nil => intro p cur _ h; exact h
  | cons i tl ih =>
    intro p cur hget h
    rw [linkedChain_cons] at h ⊢
    obtain ⟨hcur, hprev, hlt, htl⟩ := h
    have hgi : getBlock a' i = getBlock a i := hget i (List.mem_cons_self ..)
    refine ⟨hcur, by rw [hgi]; exact hprev, lt_of_lt_of_le hlt hlen, ?_⟩
    rw [hgi]
    exact ih (fun j hj => hget j (List.mem_cons_of_mem _ hj)) htl

theorem linkedChain_graft {a a' : MemoryAllocator} {rest rest' : List Nat}
    (hlen : a.blocks.length ≤ a'.blocks.length)
    (hsite : ∀ p' cur', LinkedChain a p' cur' rest → LinkedChain a' p' cur' rest') :
    ∀ (u : List Nat) {p cur : Option Nat},
      (∀ j ∈ u, getBlock a' j = getBlock a j) →
      LinkedChain a p cur (u ++ rest) → LinkedChain a' p cur (u ++ rest') := by
  intro u
  induction u with
  | nil => intro p cur _ h; exact hsite p cur h
  | cons x u ih =>
    intro p cur hget h
    simp only [List.cons_append] at h ⊢
    rw [linkedChain_cons] at h ⊢
    obtain ⟨hcur, hprev, hlt, htl⟩ := h
    have hgx := hget x (List.mem_cons_self ..)
    refine ⟨hcur, by rw [hgx]; exact hprev, lt_of_lt_of_le hlt hlen, ?_⟩
    rw [hgx]
    exact ih (fun j hj => hget j (List.mem_cons_of_mem _ hj)) htl

theorem linkedChain_next_eq {a : MemoryAllocator} (u : List Nat) {p cur : Option Nat}
    {i : Nat} {v : List Nat} (h : LinkedChain a p cur (u ++ i :: v)) :
    (getBlock a i).next = v.head? := by
  obtain ⟨p', hsuf⟩ := linkedChain_suffix u h
  rw [linkedChain_cons] at hsuf
  cases v with
  | nil => exact hsuf.2.2.2
  | cons j w =>
    have := hsuf.2.2.2
    rw [linkedChain_cons] at this
    exact this.1

theorem linkedChain_prev_last {a : MemoryAllocator} (u : List Nat) {p cur : Option Nat}
    {q i : Nat} {v : List Nat} (h : LinkedChain a p cur (u ++ q :: i :: v)) :
    (getBlock a i).prev = some q := by
  obtain ⟨p', hsuf⟩ := linkedChain_suffix u h
  rw [linkedChain_cons] at hsuf
  have := hsuf.2.2.2
  rw [linkedChain_cons] at this
  exact this.2.1.trans (congrArg some rfl)

/- Traversal agrees with the chain. -/

theorem traverseAux_eq {a : MemoryAllocator} :
    ∀ {is : List Nat} {p cur : Option Nat} {fuel : Nat},
      LinkedChain a p cur is → is.length ≤ fuel →
        traverseAux a cur fuel = is.map (getBlock a) := by
  intro is
  induction is with
  | nil =>
    intro p cur fuel h _
    rw [linkedChain_nil] at h
    subst h
    cases fuel <;> rfl
  | cons i tl ih =>
    intro p cur fuel h hf
    rw [linkedChain_cons] at h
    obtain ⟨rfl, hprev, hlt, htl⟩ := h
    cases fuel with
    | zero => simp at hf
    | succ f =>
      simp only [traverseAux, List.map]
      exact congrArg (List.cons (getBlock a i)) (ih htl (by simpa using hf))

theorem traverse_eq {a : MemoryAllocator} {is : List Nat}
    (h : LinkedChain a none (some a.head) is) : traverse a = is.map (getBlock a) :=
  traverseAux_eq h h.length_le

theorem traverseView_eq {a : MemoryAllocator} {is : List Nat}
    (h : LinkedChain a none (some a.head) is) : traverseView a = viewOf a is := by
  rw [traverseView, traverse_eq h, viewOf, List.map_map]
  rfl

/- Pure lemmas about the view-level invariants. -/

theorem sumSizes_nil : sumSizes [] = 0 := rfl

theorem sumSizes_cons (b : BlockView) (l : List BlockView) :
    sumSizes (b :: l) = b.size + sumSizes l := by simp [sumSizes]

theorem sumSizes_append (u v : List BlockView) :
    sumSizes (u ++ v) = sumSizes u + sumSizes v := by simp [sumSizes]

theorem contigFrom_cons {b : BlockView} {l : List BlockView} {s : Int} :
    contigFrom s (b :: l) ↔ b.start = s ∧ contigFrom (s + b.size) l := Iff.rfl

theorem contigFrom_append {v : List BlockView} :
    ∀ (u : List BlockView) {s : Int},
      contigFrom s (u ++ v) ↔ contigFrom s u ∧ contigFrom (s + sumSizes u) v := by
  intro u
  induction u with
  | nil => intro s; simp [contigFrom, sumSizes]
  | cons b u ih =>
    intro s
    rw [List.cons_append, contigFrom_cons, contigFrom_cons, ih, sumSizes_cons]
    constructor
    · rintro ⟨h1, h2, h3⟩
      exact ⟨⟨h1, h2⟩, by rwa [add_assoc] at h3⟩
    · rintro ⟨⟨h1, h2⟩, h3⟩
      exact ⟨h1, h2, by rwa [← add_assoc] at h3⟩

theorem allPos_append {u v : List BlockView} :
    allPos (u ++ v) ↔ allPos u ∧ allPos v := by
  simp [allPos, List.mem_append, or_imp, forall_and]

theorem allPos_cons {b : BlockView} {l : List BlockView} :
    allPos (b :: l) ↔ 0 < b.size ∧ allPos l := by
  simp [allPos]

theorem noAdjFree_cons_iff (x : BlockView) (v : List BlockView) :
    noAdjFree (x :: v) ↔ (∀ yy ∈ v.head?, freeSep x yy) ∧ noAdjFree v :=
  List.chain'_cons'

theorem noAdjFree_middle_iff (u v : List BlockView) (x : BlockView) :
    noAdjFree (u ++ x :: v) ↔
      noAdjFree u ∧ noAdjFree v ∧
        (∀ yy ∈ u.getLast?, freeSep yy x) ∧ (∀ yy ∈ v.head?, freeSep x yy) := by
  unfold noAdjFree
  rw [List.chain'_append, List.chain'_cons']
  simp only [List.head?_cons, Option.mem_def, Option.some.injEq]
  constructor
  · rintro ⟨h1, ⟨h2, h3⟩, h4⟩
    exact ⟨h1, h3, fun yy hyy => h4 yy hyy x rfl, fun yy hyy => h2 yy hyy⟩
  · rintro ⟨h1, h2, h3, h4⟩
    exact ⟨h1, ⟨fun yy hyy => h4 yy hyy, h2⟩, fun yy hyy z hz => hz ▸ h3 yy hyy⟩

/- View lists under store mutation. -/

theorem viewOf_append (a : MemoryAllocator) (u v : List Nat) :
    viewOf a (u ++ v) = viewOf a u ++ viewOf a v := List.map_append ..

theorem viewOf_cons (a : MemoryAllocator) (i : Nat) (is : List Nat) :
    viewOf a (i :: is) = (getBlock a i).view :: viewOf a is := rfl

theorem viewOf_nil (a : MemoryAllocator) : viewOf a [] = [] := rfl

theorem viewOf_congr {a a' : MemoryAllocator} {is : List Nat}
    (h : ∀ i ∈ is, getBlock a' i = getBlock a i) : viewOf a' is = viewOf a is :=
  List.map_congr_left fun i hi => by rw [h i hi]

/- The two outcomes of `_allocate_block`. -/

theorem allocate_block_snd (a : MemoryAllocator) (i : Nat) (size : Int) :
    (a.allocate_block i size).2 = i := by
  unfold MemoryAllocator.allocate_block
  dsimp only
  split
  · rfl
  · rfl

theorem allocate_block_exact {a : MemoryAllocator} {i : Nat} {size : Int}
    (hsz : (getBlock a i).size = size) :
    a.allocate_block i size = (setBlock a i { getBlock a i with free := false }, i) := by
  unfold MemoryAllocator.allocate_block
  simp [hsz]

theorem linkedChain_set_samelinks {a : MemoryAllocator} {i : Nat} {b : Block}
    (hprev : b.prev = (getBlock a i).prev) (hnext : b.next = (getBlock a i).next) :
    ∀ {is : List Nat} {p cur : Option Nat},
      LinkedChain a p cur is → LinkedChain (setBlock a i b) p cur is := by
  intro is
  induction is with
  | nil => intro p cur h; exact h
  | cons j tl ih =>
    intro p cur h
    rw [linkedChain_cons] at h ⊢
    obtain ⟨hcur, hp, hlt, htl⟩ := h
    by_cases hji : j = i
    · subst hji
      rw [getBlock_setBlock_self b hlt]
      exact ⟨hcur, hprev.trans hp, by rwa [length_setBlock], by rw [hnext]; exact ih htl⟩
    · rw [getBlock_setBlock_ne b hji]
      exact ⟨hcur, hp, by rwa [length_setBlock], ih htl⟩

theorem viewOf_set_decomp {a : MemoryAllocator} {u v : List Nat} {i : Nat} {b : Block}
    (hi : i < a.blocks.length) (hu : i ∉ u) (hv : i ∉ v) :
    viewOf (setBlock a i b) (u ++ i :: v) = viewOf a u ++ b.view :: viewOf a v := by
  rw [viewOf_append, viewOf_cons]
  have h1 : viewOf (setBlock a i b) u = viewOf a u :=
    viewOf_congr fun j hj => getBlock_setBlock_ne b (fun e => hu (e ▸ hj))
  have h2 : viewOf (setBlock a i b) v = viewOf a v :=
    viewOf_congr fun j hj => getBlock_setBlock_ne b (fun e => hv (e ▸ hj))
  rw [h1, h2, getBlock_setBlock_self b hi]

theorem getBlock_oob {a : MemoryAllocator} {m : Nat} (h : a.blocks.length ≤ m) :
    getBlock a m = default := by
  simp [getBlock, List.getD_eq_getElem?_getD, List.getElem?_eq_none h]

theorem getBlock_append_ne {a : MemoryAllocator} (b : Block) {m : Nat}
    (hm : m ≠ a.blocks.length) :
    getBlock { a with blocks := a.blocks ++ [b] } m = getBlock a m := by
  rcases Nat.lt_or_ge m a.blocks.length with h | h
  · exact getBlock_append_lt b h
  · have e1 : (a.blocks ++ [b])[m]? = none := List.getElem?_eq_none (by simp; omega)
    have e2 : a.blocks[m]? = none := List.getElem?_eq_none h
    simp [getBlock, List.getD_eq_getElem?_getD, e1, e2]

theorem viewOf_congr_view {a a' : MemoryAllocator} {is : List Nat}
    (h : ∀ i ∈ is, (getBlock a' i).view = (getBlock a i).view) :
    viewOf a' is = viewOf a is :=
  List.map_congr_left h

/-- Reduction of `_allocate_block` in the split branch. -/
theorem allocate_block_split_red {a : MemoryAllocator} {i : Nat} {size : Int}
    (hsz : ¬ (getBlock a i).size = size) :
    a.allocate_block i size =
      (let n := a.blocks.length
       let nb : Block :=
         { start := (getBlock a i).start + size, size := (getBlock a i).size - size,
           free := true, prev := some i, next := (getBlock a i).next }
       let a1 : MemoryAllocator := { a with blocks := a.blocks ++ [nb] }
       let a2 :=
         match (getBlock a1 i).next with
         | some j => setBlock a1 j { getBlock a1 j with prev := some n }
         | none => a1
       (setBlock a2 i { getBlock a2 i with next := some n, size := size, free := false }, i)) := by
  unfold MemoryAllocator.allocate_block
  dsimp only
  rw [if_neg hsz]

/-- Full description of a split allocation: the matched block `i` is shrunk
to `size`, marked used, and relinked to the fresh remainder block (store
index `a.blocks.length`), which inherits the former successor; the chain
gains the remainder right after `i`; every other block keeps its free flag. -/
theorem allocate_block_split {a : MemoryAllocator} {u v : List Nat} {i : Nat} {size : Int}
    (hC : LinkedChain a none (some a.head) (u ++ i :: v))
    (hsz : (getBlock a i).size ≠ size) :
    (a.allocate_block i size).2 = i ∧
    (a.allocate_block i size).1.head = a.head ∧
    (a.allocate_block i size).1.total_memory = a.total_memory ∧
    (a.allocate_block i size).1.blocks.length = a.blocks.length + 1 ∧
    LinkedChain (a.allocate_block i size).1 none (some a.head)
      (u ++ i :: a.blocks.length :: v) ∧
    getBlock (a.allocate_block i size).1 i =
      { getBlock a i with size := size, free := false, next := some a.blocks.length } ∧
    getBlock (a.allocate_block i size).1 a.blocks.length =
      ⟨(getBlock a i).start + size, (getBlock a i).size - size, true, some i,
        (getBlock a i).next⟩ ∧
    viewOf (a.allocate_block i size).1 (u ++ i :: a.blocks.length :: v) =
      viewOf a u ++ ⟨(getBlock a i).start, size, false⟩ ::
        ⟨(getBlock a i).start + size, (getBlock a i).size - size, true⟩ :: viewOf a v ∧
    (∀ m, m ≠ i → (getBlock (a.allocate_block i size).1 m).free = (getBlock a m).free) := by
  have hnd := hC.nodup
  have hbnd := hC.bound
  have hlt : i < a.blocks.length := hbnd i (by simp)
  have hnext : (getBlock a i).next = v.head? := linkedChain_next_eq u hC
  have hnds := List.nodup_append.mp hnd
  have hiu : i ∉ u := fun hmem => hnds.2.2 hmem (by simp)
  have hiv : i ∉ v := (List.nodup_cons.mp hnds.2.1).1
  have hnu : a.blocks.length ∉ u := fun hmem =>
    absurd (hbnd _ (List.mem_append_left _ hmem)) (by omega)
  have hnv : a.blocks.length ∉ v := fun hmem =>
    absurd (hbnd _ (List.mem_append_right _ (List.mem_cons_of_mem _ hmem))) (by omega)
  have hni : a.blocks.length ≠ i := by omega
  -- pointwise description of the mutated store
  have hdesc :
      (a.allocate_block i size).1.head = a.head ∧
      (a.allocate_block i size).1.total_memory = a.total_memory ∧
      (a.allocate_block i size).1.blocks.length = a.blocks.length + 1 ∧
      getBlock (a.allocate_block i size).1 i =
        { getBlock a i with size := size, free := false, next := some a.blocks.length } ∧
      getBlock (a.allocate_block i size).1 a.blocks.length =
        ⟨(getBlock a i).start + size, (getBlock a i).size - size, true, some i,
          (getBlock a i).next⟩ ∧
      (∀ k, v.head? = some k → getBlock (a.allocate_block i size).1 k =
        { getBlock a k with prev := some a.blocks.length }) ∧
      (∀ m, m ≠ i → m ≠ a.blocks.length → (∀ k, v.head? = some k → m ≠ k) →
        getBlock (a.allocate_block i size).1 m = getBlock a m) := by
    rw [allocate_block_split_red hsz]
    dsimp only
    rw [getBlock_append_lt _ hlt, hnext]
    cases v with
    | nil =>
      simp only [List.head?_nil]
      refine ⟨rfl, rfl, ?_, ?_, ?_, ?_, ?_⟩
      · rw [length_setBlock]; simp
      · rw [getBlock_setBlock_self _ (by simp [length_setBlock]; omega),
          getBlock_append_lt _ hlt]
      · rw [getBlock_setBlock_ne _ hni, getBlock_append_self]
      · intro k hk; exact absurd hk (by simp)
      · intro m hmi hmn _
        rw [getBlock_setBlock_ne _ hmi, getBlock_append_ne _ hmn]
    | cons k v' =>
      simp only [List.head?_cons]
      have hklt : k < a.blocks.length := hbnd k (by simp)
      have hki : k ≠ i := fun e => hiv (e ▸ List.mem_cons_self ..)
      have hkn : k ≠ a.blocks.length := by omega
      have hgk1 : getBlock { a with blocks := a.blocks ++
          [{ start := (getBlock a i).start + size, size := (getBlock a i).size - size,
             free := true, prev := some i, next := some k }] } k = getBlock a k :=
        getBlock_append_lt _ hklt
      refine ⟨rfl, rfl, ?_, ?_, ?_, ?_, ?_⟩
      · rw [length_setBlock, length_setBlock]; simp
      · rw [getBlock_setBlock_self _ (by simp [length_setBlock]; omega),
          getBlock_setBlock_ne _ (fun e => hki e.symm), getBlock_append_lt _ hlt]
      · rw [getBlock_setBlock_ne _ hni,
          getBlock_setBlock_ne _ (fun e => hkn e.symm), getBlock_append_self]
      · intro k' hk'
        obtain rfl : k' = k := by simpa using hk'.symm
        rw [getBlock_setBlock_ne _ hki,
          getBlock_setBlock_self _ (by simp; omega), hgk1]
      · intro m hmi hmn hmk
        rw [getBlock_setBlock_ne _ hmi, getBlock_setBlock_ne _ (hmk k rfl),
          getBlock_append_ne _ hmn]
  obtain ⟨hhead, htm, hlen', hgi, hgn, hgk, hother⟩ := hdesc
  have hlenle : a.blocks.length ≤ (a.allocate_block i size).1.blocks.length := by omega
  have hchain : LinkedChain (a.allocate_block i size).1 none (some a.head)
      (u ++ i :: a.blocks.length :: v) := by
    refine linkedChain_graft hlenle ?_ u ?_ hC
    · intro p' cur' hsc
      have hnd2 := LinkedChain.nodup hsc
      rw [linkedChain_cons] at hsc
      obtain ⟨hcur, hp, _, htail⟩ := hsc
      rw [linkedChain_cons]
      refine ⟨hcur, by rw [hgi]; exact hp, by omega, ?_⟩
      rw [hgi]
      show LinkedChain _ (some i) (some a.blocks.length) _
      rw [linkedChain_cons]
      refine ⟨rfl, by rw [hgn], by omega, ?_⟩
      rw [hgn]
      show LinkedChain _ (some a.blocks.length) ((getBlock a i).next) v
      rw [hnext]
      cases v with
      | nil => exact rfl
      | cons k v' =>
        have hk := hgk k rfl
        rw [hnext] at htail
        rw [linkedChain_cons] at htail
        obtain ⟨_, _, hklt2, htail2⟩ := htail
        rw [linkedChain_cons]
        refine ⟨rfl, by rw [hk], by omega, ?_⟩
        rw [hk]
        show LinkedChain _ (some k) ((getBlock a k).next) v'
        have hndkv : k ∉ v' := (List.nodup_cons.mp (List.nodup_cons.mp hnd2).2).1
        have hiv2 : i ∉ k :: v' := (List.nodup_cons.mp hnd2).1
        refine linkedChain_mono hlenle ?_ htail2
        intro m hm
        refine hother m (fun e => hiv2 (e ▸ List.mem_cons_of_mem _ hm)) ?_ ?_
        · have := htail2.bound m hm; omega
        · intro k' hk'
          obtain rfl : k' = k := by simpa using hk'.symm
          exact fun e => hndkv (e ▸ hm)
    · intro j hj
      have hji : j ≠ i := fun e => hiu (e ▸ hj)
      have hjn : j ≠ a.blocks.length := fun e => hnu (e ▸ hj)
      refine hother j hji hjn ?_
      intro k hk e
      subst e
      cases v with
      | nil => simp at hk
      | cons k0 v' =>
        obtain rfl : k0 = j := by simpa using hk
        exact hnds.2.2 hj (by simp)
  have hview : viewOf (a.allocate_block i size).1 (u ++ i :: a.blocks.length :: v) =
      viewOf a u ++ ⟨(getBlock a i).start, size, false⟩ ::
        ⟨(getBlock a i).start + size, (getBlock a i).size - size, true⟩ :: viewOf a v := by
    rw [viewOf_append, viewOf_cons, viewOf_cons]
    have h1 : viewOf (a.allocate_block i size).1 u = viewOf a u := by
      refine viewOf_congr ?_
      intro j hj
      have hji : j ≠ i := fun e => hiu (e ▸ hj)
      have hjn : j ≠ a.blocks.length := fun e => hnu (e ▸ hj)
      refine hother j hji hjn ?_
      intro k hk e
      subst e
      cases v with
      | nil => simp at hk
      | cons k0 v' =>
        obtain rfl : k0 = j := by simpa using hk
        exact hnds.2.2 hj (by simp)
    have h2 : viewOf (a.allocate_block i size).1 v = viewOf a v := by
      refine viewOf_congr_view ?_
      intro m hm
      have hmi : m ≠ i := fun e => hiv (e ▸ hm)
      have hmn : m ≠ a.blocks.length := fun e => hnv (e ▸ hm)
      cases v with
      | nil => cases hm
      | cons k0 v' =>
        rcases List.mem_cons.mp hm with rfl | hm'
        · rw [hgk m rfl]; rfl
        · have hk0 : k0 ∉ v' := (List.nodup_cons.mp (List.nodup_cons.mp hnds.2.1).2).1
          rw [hother m hmi hmn ?_]
          intro k' hk'
          obtain rfl : k' = k0 := by simpa using hk'.symm
          exact fun e => hk0 (e ▸ hm')
    rw [h1, h2, hgi, hgn]
    rfl
  have hfree : ∀ m, m ≠ i →
      (getBlock (a.allocate_block i size).1 m).free = (getBlock a m).free := by
    intro m hmi
    by_cases hmn : m = a.blocks.length
    · subst hmn
      rw [hgn, getBlock_oob (le_refl _)]
      rfl
    · rcases hv : v.head? with _ | k
      · rw [hother m hmi hmn (by intro k hk; rw [hv] at hk; cases hk)]
      · by_cases hmk : m = k
        · subst hmk; rw [hgk m hv]
        · rw [hother m hmi hmn ?_]
          intro k' hk'
          rw [hv] at hk'
          obtain rfl : k' = k := by simpa using hk'.symm
          exact hmk
  exact ⟨allocate_block_snd .., hhead, htm, hlen', hchain, hgi, hgn, hview, hfree⟩

/- The first-fit scan. -/

theorem first_fit_loop_none {a : MemoryAllocator} {size : Int} :
    ∀ {is : List Nat} {p cur : Option Nat} {fuel : Nat},
      LinkedChain a p cur is → is.length ≤ fuel →
      (∀ j ∈ is, ¬((getBlock a j).free = true ∧ size ≤ (getBlock a j).size)) →
      first_fit_loop a size cur fuel = (a, none) := by
  intro is
  induction is with
  | nil =>
    intro p cur fuel h _ _
    rw [linkedChain_nil] at h
    subst h
    cases fuel <;> rfl
  | cons j tl ih =>
    intro p cur fuel h hf hno
    rw [linkedChain_cons] at h
    obtain ⟨rfl, hp, hlt, htl⟩ := h
    cases fuel with
    | zero => simp at hf
    | succ f =>
      show first_fit_loop a size (some j) (f + 1) = (a, none)
      unfold first_fit_loop
      rw [if_neg (hno j (by simp))]
      exact ih htl (by simpa using hf) (fun m hm => hno m (by simp [hm]))

theorem first_fit_loop_found {a : MemoryAllocator} {size : Int} :
    ∀ (u : List Nat) {i : Nat} {v : List Nat} {p cur : Option Nat} {fuel : Nat},
      LinkedChain a p cur (u ++ i :: v) → (u ++ i :: v).length ≤ fuel →
      (∀ j ∈ u, ¬((getBlock a j).free = true ∧ size ≤ (getBlock a j).size)) →
      (getBlock a i).free = true → size ≤ (getBlock a i).size →
      first_fit_loop a size cur fuel =
        ((a.allocate_block i size).1, some (a.allocate_block i size).2) := by
  intro u
  induction u with
  | nil =>
    intro i v p cur fuel h hf _ hfree hsz
    simp only [List.nil_append] at h hf
    rw [linkedChain_cons] at h
    obtain ⟨rfl, -, -, -⟩ := h
    cases fuel with
    | zero => simp at hf
    | succ f =>
      unfold first_fit_loop
      rw [if_pos ⟨hfree, hsz⟩]
  | cons x u ih =>
    intro i v p cur fuel h hf hno hfree hsz
    simp only [List.cons_append] at h hf
    rw [linkedChain_cons] at h
    obtain ⟨rfl, -, -, htl⟩ := h
    cases fuel with
    | zero => simp at hf
    | succ f =>
      unfold first_fit_loop
      rw [if_neg (hno x (by simp))]
      exact ih htl (by simpa using hf) (fun m hm => hno m (by simp [hm])) hfree hsz

theorem first_fit_none {a : MemoryAllocator} {size : Int} {is : List Nat}
    (hC : LinkedChain a none (some a.head) is)
    (hno : ∀ j ∈ is, ¬((getBlock a j).free = true ∧ size ≤ (getBlock a j).size)) :
    a.first_fit size = (a, none) :=
  first_fit_loop_none hC hC.length_le hno

theorem first_fit_found {a : MemoryAllocator} {size : Int} {u : List Nat} {i : Nat}
    {v : List Nat} (hC : LinkedChain a none (some a.head) (u ++ i :: v))
    (hno : ∀ j ∈ u, ¬((getBlock a j).free = true ∧ size ≤ (getBlock a j).size))
    (hfree : (getBlock a i).free = true) (hsz : size ≤ (getBlock a i).size) :
    a.first_fit size = ((a.allocate_block i size).1, some (a.allocate_block i size).2) :=
  first_fit_loop_found u hC hC.length_le hno hfree hsz

/-- A list either has no element satisfying a decidable property, or splits
at the first such element. -/
theorem exists_first_split {α : Type} (p : α → Prop) [DecidablePred p] :
    ∀ (l : List α), (∀ x ∈ l, ¬ p x) ∨
      ∃ u x v, l = u ++ x :: v ∧ (∀ y ∈ u, ¬ p y) ∧ p x := by
  intro l
  induction l with
  | nil => exact Or.inl (by simp)
  | cons a l ih =>
    by_cases hpa : p a
    · exact Or.inr ⟨[], a, l, rfl, by simp, hpa⟩
    · rcases ih with h | ⟨u, x, v, rfl, hu, hx⟩
      · refine Or.inl ?_
        intro y hy
        rcases List.mem_cons.mp hy with rfl | hm
        · exact hpa
        · exact h y hm
      · refine Or.inr ⟨a :: u, x, v, rfl, ?_, hx⟩
        intro y hy
        rcases List.mem_cons.mp hy with rfl | hm
        · exact hpa
        · exact hu y hm

/- The successor-coalescing step. -/

theorem setBlock_setBlock (a : MemoryAllocator) (i : Nat) (b1 b2 : Block) :
    setBlock (setBlock a i b1) i b2 = setBlock a i b2 := by
  simp [setBlock, List.set_set]

theorem mergeNext_nil {a : MemoryAllocator} {i : Nat}
    (hnext : (getBlock a i).next = none) : mergeNext a i = a := by
  unfold mergeNext
  rw [hnext]

theorem mergeNext_notfree {a : MemoryAllocator} {i j : Nat}
    (hnext : (getBlock a i).next = some j) (hj : (getBlock a j).free = false) :
    mergeNext a i = a := by
  unfold mergeNext
  rw [hnext]
  dsimp only
  rw [if_neg (by rw [hj]; exact Bool.false_ne_true)]

theorem mergeNext_red {a : MemoryAllocator} {i j : Nat}
    (hnext : (getBlock a i).next = some j) (hjfree : (getBlock a j).free = true) :
    mergeNext a i =
      (let a1 := setBlock a i
        { getBlock a i with size := (getBlock a i).size + (getBlock a j).size }
       let a2 := setBlock a1 i { getBlock a1 i with next := (getBlock a1 j).next }
       match (getBlock a2 i).next with
       | some k => setBlock a2 k { getBlock a2 k with prev := some i }
       | none => a2) := by
  unfold mergeNext
  rw [hnext]
  dsimp only
  rw [if_pos hjfree]

/-- Full description of a successor merge: `i` absorbs the free successor
`j` (sum of sizes, inherits the next link), the block after `j` is relinked
back to `i`, and `j` leaves the chain; every other block keeps its view. -/
theorem mergeNext_merge {a : MemoryAllocator} {u v' : List Nat} {i j : Nat}
    (hC : LinkedChain a none (some a.head) (u ++ i :: j :: v'))
    (hjfree : (getBlock a j).free = true) :
    (mergeNext a i).head = a.head ∧
    (mergeNext a i).total_memory = a.total_memory ∧
    (mergeNext a i).blocks.length = a.blocks.length ∧
    LinkedChain (mergeNext a i) none (some a.head) (u ++ i :: v') ∧
    getBlock (mergeNext a i) i =
      { getBlock a i with
          size := (getBlock a i).size + (getBlock a j).size
          next := (getBlock a j).next } ∧
    (∀ m, m ≠ i → (getBlock (mergeNext a i) m).view = (getBlock a m).view) ∧
    (∀ m, m ≠ i → (∀ k, v'.head? = some k → m ≠ k) →
      getBlock (mergeNext a i) m = getBlock a m) := by
  have hnd := hC.nodup
  have hbnd := hC.bound
  have hlt : i < a.blocks.length := hbnd i (by simp)
  have hjlt : j < a.blocks.length := hbnd j (by simp)
  have hC' : LinkedChain a none (some a.head) ((u ++ [i]) ++ j :: v') := by
    simpa using hC
  have hnext : (getBlock a i).next = some j := by
    simpa using linkedChain_next_eq u hC
  have hjnext : (getBlock a j).next = v'.head? := linkedChain_next_eq (u ++ [i]) hC'
  have hnds := List.nodup_append.mp hnd
  have hiu : i ∉ u := fun hmem => hnds.2.2 hmem (by simp)
  have hju : j ∉ u := fun hmem => hnds.2.2 hmem (by simp)
  have hcons1 := List.nodup_cons.mp hnds.2.1
  have hcons2 := List.nodup_cons.mp hcons1.2
  have hij : i ≠ j := fun e => hcons1.1 (e ▸ List.mem_cons_self ..)
  have hji : j ≠ i := fun e => hij e.symm
  have hiv : i ∉ v' := fun hmem => hcons1.1 (List.mem_cons_of_mem _ hmem)
  have hjv : j ∉ v' := hcons2.1
  -- pointwise description of the mutated store
  have hdesc :
      (mergeNext a i).head = a.head ∧
      (mergeNext a i).total_memory = a.total_memory ∧
      (mergeNext a i).blocks.length = a.blocks.length ∧
      getBlock (mergeNext a i) i =
        { getBlock a i with
            size := (getBlock a i).size + (getBlock a j).size
            next := (getBlock a j).next } ∧
      (∀ k, v'.head? = some k → getBlock (mergeNext a i) k =
        { getBlock a k with prev := some i }) ∧
      (∀ m, m ≠ i → (∀ k, v'.head? = some k → m ≠ k) →
        getBlock (mergeNext a i) m = getBlock a m) := by
    rw [mergeNext_red hnext hjfree]
    dsimp only
    rw [getBlock_setBlock_ne _ hji, getBlock_setBlock_self _ hlt, setBlock_setBlock,
      getBlock_setBlock_self _ hlt]
    rw [hjnext]
    cases v' with
    | nil =>
      simp only [List.head?_nil]
      refine ⟨rfl, rfl, by rw [length_setBlock], ?_, ?_, ?_⟩
      · rw [getBlock_setBlock_self _ hlt]
      · intro k hk; exact absurd hk (by simp)
      · intro m hmi _
        rw [getBlock_setBlock_ne _ hmi]
    | cons k v'' =>
      simp only [List.head?_cons]
      have hklt : k < a.blocks.length := hbnd k (by simp)
      have hki : k ≠ i := fun e => hiv (e ▸ List.mem_cons_self ..)
      refine ⟨rfl, rfl, by rw [length_setBlock, length_setBlock], ?_, ?_, ?_⟩
      · rw [getBlock_setBlock_ne _ (fun e => hki e.symm), getBlock_setBlock_self _ hlt]
      · intro k' hk'
        obtain rfl : k' = k := by simpa using hk'.symm
        rw [getBlock_setBlock_self _ (by rw [length_setBlock]; exact hklt),
          getBlock_setBlock_ne _ hki]
      · intro m hmi hmk
        rw [getBlock_setBlock_ne _ (hmk k rfl), getBlock_setBlock_ne _ hmi]
  obtain ⟨hhead, htm, hlen, hgi, hgk, hother⟩ := hdesc
  have hlenle : a.blocks.length ≤ (mergeNext a i).blocks.length := by omega
  have hvother : ∀ m, m ≠ i → (getBlock (mergeNext a i) m).view = (getBlock a m).view := by
    intro m hmi
    rcases hv : v'.head? with _ | k
    · rw [hother m hmi (by intro k hk; rw [hv] at hk; cases hk)]
    · by_cases hmk : m = k
      · subst hmk; rw [hgk m hv]; rfl
      · rw [hother m hmi ?_]
        intro k' hk'
        rw [hv] at hk'
        obtain rfl : k' = k := by simpa using hk'.symm
        exact hmk
  have hchain : LinkedChain (mergeNext a i) none (some a.head) (u ++ i :: v') := by
    refine linkedChain_graft hlenle ?_ u ?_ hC
    · intro p' cur' hsc
      have hnd2 := LinkedChain.nodup hsc
      rw [linkedChain_cons] at hsc
      obtain ⟨hcur, hp, -, htail⟩ := hsc
      rw [hnext] at htail
      rw [linkedChain_cons] at htail
      obtain ⟨-, -, -, htail2⟩ := htail
      rw [linkedChain_cons]
      refine ⟨hcur, by rw [hgi]; exact hp, by omega, ?_⟩
      rw [hgi]
      show LinkedChain _ (some i) ((getBlock a j).next) v'
      rw [hjnext]
      cases v' with
      | nil => exact rfl
      | cons k v'' =>
        have hk := hgk k rfl
        rw [linkedChain_cons] at htail2 ⊢
        obtain ⟨-, -, hklt2, htail3⟩ := htail2
        refine ⟨rfl, by rw [hk], by omega, ?_⟩
        rw [hk]
        show LinkedChain _ (some k) ((getBlock a k).next) v''
        have hndk : k ∉ v'' := (List.nodup_cons.mp (List.nodup_cons.mp
          (List.nodup_cons.mp hnd2).2).2).1
        refine linkedChain_mono hlenle ?_ htail3
        intro m hm
        refine hother m (fun e => (List.nodup_cons.mp hnd2).1
          (e ▸ List.mem_cons_of_mem _ (List.mem_cons_of_mem _ hm))) ?_
        intro k' hk'
        obtain rfl : k' = k := by simpa using hk'.symm
        exact fun e => hndk (e ▸ hm)
    · intro m hm
      have hmi : m ≠ i := fun e => hiu (e ▸ hm)
      refine hother m hmi ?_
      intro k hk e
      subst e
      cases v' with
      | nil => simp at hk
      | cons k0 v'' =>
        obtain rfl : k0 = m := by simpa using hk
        exact hnds.2.2 hm (by simp)
  exact ⟨hhead, htm, hlen, hchain, hgi, hvother, hother⟩

/- The predecessor-coalescing step. -/

theorem mergePrev_nil {a : MemoryAllocator} {i : Nat}
    (hprev : (getBlock a i).prev = none) : mergePrev a i = a := by
  unfold mergePrev
  rw [hprev]

theorem mergePrev_notfree {a : MemoryAllocator} {i p : Nat}
    (hprev : (getBlock a i).prev = some p) (hp : (getBlock a p).free = false) :
    mergePrev a i = a := by
  unfold mergePrev
  rw [hprev]
  dsimp only
  rw [if_neg (by rw [hp]; exact Bool.false_ne_true)]

theorem mergePrev_red {a : MemoryAllocator} {i p : Nat}
    (hprev : (getBlock a i).prev = some p) (hpfree : (getBlock a p).free = true) :
    mergePrev a i =
      (let a1 := setBlock a p
        { getBlock a p with size := (getBlock a p).size + (getBlock a i).size }
       let a2 := setBlock a1 p { getBlock a1 p with next := (getBlock a1 i).next }
       match (getBlock a2 i).next with
       | some k => setBlock a2 k { getBlock a2 k with prev := (getBlock a2 i).prev }
       | none => a2) := by
  unfold mergePrev
  rw [hprev]
  dsimp only
  rw [if_pos hpfree]

/-- Full description of a predecessor merge: the free predecessor `p`
absorbs `i` (sum of sizes, inherits the next link), the block after `i` is
relinked back to `p`, and `i` leaves the chain; every block other than `p`
keeps its view. -/
theorem mergePrev_merge {a : MemoryAllocator} {u' v : List Nat} {p i : Nat}
    (hC : LinkedChain a none (some a.head) ((u' ++ [p]) ++ i :: v))
    (hpfree : (getBlock a p).free = true) :
    (mergePrev a i).head = a.head ∧
    (mergePrev a i).total_memory = a.total_memory ∧
    (mergePrev a i).blocks.length = a.blocks.length ∧
    LinkedChain (mergePrev a i) none (some a.head) (u' ++ p :: v) ∧
    getBlock (mergePrev a i) p =
      { getBlock a p with
          size := (getBlock a p).size + (getBlock a i).size
          next := (getBlock a i).next } ∧
    (∀ m, m ≠ p → (getBlock (mergePrev a i) m).view = (getBlock a m).view) ∧
    (∀ m, m ≠ p → (∀ k, v.head? = some k → m ≠ k) →
      getBlock (mergePrev a i) m = getBlock a m) := by
  have hnd := hC.nodup
  have hbnd := hC.bound
  have hlt : i < a.blocks.length := hbnd i (by simp)
  have hplt : p < a.blocks.length := hbnd p (by simp)
  have hC2 : LinkedChain a none (some a.head) (u' ++ p :: i :: v) := by
    simpa using hC
  have hnext : (getBlock a i).next = v.head? := linkedChain_next_eq (u' ++ [p]) hC
  have hprev : (getBlock a i).prev = some p := linkedChain_prev_last u' hC2
  have hpnext : (getBlock a p).next = some i := by
    simpa using linkedChain_next_eq u' hC2
  have hnds := List.nodup_append.mp (by simpa using hnd :
    (u' ++ p :: i :: v).Nodup)
  have hpu : p ∉ u' := fun hmem => hnds.2.2 hmem (by simp)
  have hiu : i ∉ u' := fun hmem => hnds.2.2 hmem (by simp)
  have hcons1 := List.nodup_cons.mp hnds.2.1
  have hcons2 := List.nodup_cons.mp hcons1.2
  have hpi : p ≠ i := fun e => hcons1.1 (e ▸ List.mem_cons_self ..)
  have hip : i ≠ p := fun e => hpi e.symm
  have hpv : p ∉ v := fun hmem => hcons1.1 (List.mem_cons_of_mem _ hmem)
  have hiv : i ∉ v := hcons2.1
  -- pointwise description of the mutated store
  have hdesc :
      (mergePrev a i).head = a.head ∧
      (mergePrev a i).total_memory = a.total_memory ∧
      (mergePrev a i).blocks.length = a.blocks.length ∧
      getBlock (mergePrev a i) p =
        { getBlock a p with
            size := (getBlock a p).size + (getBlock a i).size
            next := (getBlock a i).next } ∧
      (∀ k, v.head? = some k → getBlock (mergePrev a i) k =
        { getBlock a k with prev := some p }) ∧
      (∀ m, m ≠ p → (∀ k, v.head? = some k → m ≠ k) →
        getBlock (mergePrev a i) m = getBlock a m) := by
    rw [mergePrev_red hprev hpfree]
    dsimp only
    rw [getBlock_setBlock_ne _ hip, getBlock_setBlock_self _ hplt, setBlock_setBlock,
      getBlock_setBlock_ne _ hip]
    rw [hnext, hprev]
    cases v with
    | nil =>
      simp only [List.head?_nil]
      refine ⟨rfl, rfl, by rw [length_setBlock], ?_, ?_, ?_⟩
      · rw [getBlock_setBlock_self _ hplt]
      · intro k hk; exact absurd hk (by simp)
      · intro m hmp _
        rw [getBlock_setBlock_ne _ hmp]
    | cons k v' =>
      simp only [List.head?_cons]
      have hklt : k < a.blocks.length := hbnd k (by simp)
      have hkp : k ≠ p := fun e => hpv (e ▸ List.mem_cons_self ..)
      refine ⟨rfl, rfl, by rw [length_setBlock, length_setBlock], ?_, ?_, ?_⟩
      · rw [getBlock_setBlock_ne _ (fun e => hkp e.symm), getBlock_setBlock_self _ hplt]
      · intro k' hk'
        obtain rfl : k' = k := by simpa using hk'.symm
        rw [getBlock_setBlock_self _ (by rw [length_setBlock]; exact hklt),
          getBlock_setBlock_ne _ hkp]
      · intro m hmp hmk
        rw [getBlock_setBlock_ne _ (hmk k rfl), getBlock_setBlock_ne _ hmp]
  obtain ⟨hhead, htm, hlen, hgp, hgk, hother⟩ := hdesc
  have hlenle : a.blocks.length ≤ (mergePrev a i).blocks.length := by omega
  have hvother : ∀ m, m ≠ p → (getBlock (mergePrev a i) m).view = (getBlock a m).view := by
    intro m hmp
    rcases hv : v.head? with _ | k
    · rw [hother m hmp (by intro k hk; rw [hv] at hk; cases hk)]
    · by_cases hmk : m = k
      · subst hmk; rw [hgk m hv]; rfl
      · rw [hother m hmp ?_]
        intro k' hk'
        rw [hv] at hk'
        obtain rfl : k' = k := by simpa using hk'.symm
        exact hmk
  have hchain : LinkedChain (mergePrev a i) none (some a.head) (u' ++ p :: v) := by
    refine linkedChain_graft hlenle ?_ u' ?_ hC2
    · intro p' cur' hsc
      have hnd2 := LinkedChain.nodup hsc
      rw [linkedChain_cons] at hsc
      obtain ⟨hcur, hp2, -, htail⟩ := hsc
      rw [hpnext] at htail
      rw [linkedChain_cons] at htail
      obtain ⟨-, -, -, htail2⟩ := htail
      rw [linkedChain_cons]
      refine ⟨hcur, by rw [hgp]; exact hp2, by omega, ?_⟩
      rw [hgp]
      show LinkedChain _ (some p) ((getBlock a i).next) v
      rw [hnext]
      cases v with
      | nil => exact rfl
      | cons k v' =>
        have hk := hgk k rfl
        rw [linkedChain_cons] at htail2 ⊢
        obtain ⟨-, -, hklt2, htail3⟩ := htail2
        refine ⟨rfl, by rw [hk], by omega, ?_⟩
        rw [hk]
        show LinkedChain _ (some k) ((getBlock a k).next) v'
        have hndk : k ∉ v' := (List.nodup_cons.mp (List.nodup_cons.mp
          (List.nodup_cons.mp hnd2).2).2).1
        refine linkedChain_mono hlenle ?_ htail3
        intro m hm
        refine hother m (fun e => (List.nodup_cons.mp hnd2).1
          (e ▸ List.mem_cons_of_mem _ (List.mem_cons_of_mem _ hm))) ?_
        intro k' hk'
        obtain rfl : k' = k := by simpa using hk'.symm
        exact fun e => hndk (e ▸ hm)
    · intro m hm
      have hmp : m ≠ p := fun e => hpu (e ▸ hm)
      refine hother m hmp ?_
      intro k hk e
      subst e
      cases v with
      | nil => simp at hk
      | cons k0 v' =>
        obtain rfl : k0 = m := by simpa using hk
        exact hnds.2.2 hm (by simp)
  exact ⟨hhead, htm, hlen, hchain, hgp, hvother, hother⟩

theorem viewOf_from_pointwise {h' a : MemoryAllocator} {u v : List Nat} {x : Nat}
    {mid : BlockView} (hmid : (getBlock h' x).view = mid)
    (hu : ∀ m ∈ u, (getBlock h' m).view = (getBlock a m).view)
    (hv : ∀ m ∈ v, (getBlock h' m).view = (getBlock a m).view) :
    viewOf h' (u ++ x :: v) = viewOf a u ++ mid :: viewOf a v := by
  rw [viewOf_append, viewOf_cons, viewOf_congr_view hu, viewOf_congr_view hv, hmid]

/-- Releasing a block with no free neighbor: the block is only marked free,
nothing else changes. -/
theorem free_block_case_none {a : MemoryAllocator} {u v : List Nat} {i : Nat}
    (hC : LinkedChain a none (some a.head) (u ++ i :: v))
    (hsucc : ∀ j, v.head? = some j → (getBlock a j).free = false)
    (hpred : ∀ p, u.getLast? = some p → (getBlock a p).free = false) :
    (a.free_block i).head = a.head ∧
    (a.free_block i).total_memory = a.total_memory ∧
    (a.free_block i).blocks.length = a.blocks.length ∧
    LinkedChain (a.free_block i) none (some a.head) (u ++ i :: v) ∧
    (getBlock (a.free_block i) i).view =
      ⟨(getBlock a i).start, (getBlock a i).size, true⟩ ∧
    (∀ m, m ≠ i → (getBlock (a.free_block i) m).view = (getBlock a m).view) ∧
    viewOf (a.free_block i) (u ++ i :: v) =
      viewOf a u ++ ⟨(getBlock a i).start, (getBlock a i).size, true⟩ :: viewOf a v := by
  have hbnd := hC.bound
  have hlt : i < a.blocks.length := hbnd i (by simp)
  have hnd := hC.nodup
  have hnds := List.nodup_append.mp hnd
  have hiu : i ∉ u := fun hmem => hnds.2.2 hmem (by simp)
  have hiv : i ∉ v := (List.nodup_cons.mp hnds.2.1).1
  have hnext : (getBlock a i).next = v.head? := linkedChain_next_eq u hC
  have e0i : getBlock (setBlock a i { getBlock a i with free := true }) i
      = { getBlock a i with free := true } := getBlock_setBlock_self _ hlt
  have e0m : ∀ m, m ≠ i → getBlock (setBlock a i { getBlock a i with free := true }) m
      = getBlock a m := fun m hm => getBlock_setBlock_ne _ hm
  have hC0 : LinkedChain (setBlock a i { getBlock a i with free := true }) none
      (some a.head) (u ++ i :: v) :=
    linkedChain_set_samelinks (b := { getBlock a i with free := true }) rfl rfl hC
  -- the successor merge is a no-op
  have hmn : mergeNext (setBlock a i { getBlock a i with free := true }) i
      = setBlock a i { getBlock a i with free := true } := by
    rcases hv : v with _ | ⟨j, v'⟩
    · refine mergeNext_nil ?_
      rw [e0i]
      show (getBlock a i).next = none
      rw [hnext, hv]
      rfl
    · have hji : j ≠ i := fun e => hiv (by rw [hv]; exact e ▸ List.mem_cons_self ..)
      refine mergeNext_notfree (j := j) ?_ ?_
      · rw [e0i]
        show (getBlock a i).next = some j
        rw [hnext, hv]
        rfl
      · rw [e0m j hji]
        exact hsucc j (by rw [hv]; rfl)
  -- the predecessor merge is a no-op
  have hfb : a.free_block i = setBlock a i { getBlock a i with free := true } := by
    show mergePrev (mergeNext (setBlock a i { getBlock a i with free := true }) i) i = _
    rw [hmn]
    rcases List.eq_nil_or_concat u with rfl | ⟨u'', q, hq⟩
    · refine mergePrev_nil ?_
      rw [e0i]
      show (getBlock a i).prev = none
      simp only [List.nil_append] at hC
      rw [linkedChain_cons] at hC
      exact hC.2.1
    · have hq' : u = u'' ++ [q] := by simpa using hq
      subst hq'
      have hqi : q ≠ i := fun e => hiu (e ▸ by simp)
      refine mergePrev_notfree (p := q) ?_ ?_
      · rw [e0i]
        show (getBlock a i).prev = some q
        exact linkedChain_prev_last u'' (by simpa using hC)
      · rw [e0m q hqi]
        exact hpred q (by simp)
  refine ⟨by rw [hfb]; rfl, by rw [hfb]; rfl, by rw [hfb]; exact length_setBlock .., ?_, ?_, ?_, ?_⟩
  · rw [hfb]; exact hC0
  · rw [hfb, e0i]; rfl
  · intro m hm
    rw [hfb, e0m m hm]
  · rw [hfb]
    refine viewOf_from_pointwise (by rw [e0i]; rfl) ?_ ?_
    · intro m hm
      rw [e0m m (fun e => hiu (e ▸ hm))]
    · intro m hm
      rw [e0m m (fun e => hiv (e ▸ hm))]

/-- Releasing a block whose successor is free (predecessor absent or used):
the block absorbs the successor. -/
theorem free_block_case_succ {a : MemoryAllocator} {u v' : List Nat} {i j : Nat}
    (hC : LinkedChain a none (some a.head) (u ++ i :: j :: v'))
    (hjfree : (getBlock a j).free = true)
    (hpred : ∀ p, u.getLast? = some p → (getBlock a p).free = false) :
    (a.free_block i).head = a.head ∧
    (a.free_block i).total_memory = a.total_memory ∧
    (a.free_block i).blocks.length = a.blocks.length ∧
    LinkedChain (a.free_block i) none (some a.head) (u ++ i :: v') ∧
    (getBlock (a.free_block i) i).view =
      ⟨(getBlock a i).start, (getBlock a i).size + (getBlock a j).size, true⟩ ∧
    (∀ m, m ≠ i → (getBlock (a.free_block i) m).view = (getBlock a m).view) ∧
    viewOf (a.free_block i) (u ++ i :: v') =
      viewOf a u ++ ⟨(getBlock a i).start, (getBlock a i).size + (getBlock a j).size, true⟩
        :: viewOf a v' := by
  have hbnd := hC.bound
  have hlt : i < a.blocks.length := hbnd i (by simp)
  have hnd := hC.nodup
  have hnds := List.nodup_append.mp hnd
  have hiu : i ∉ u := fun hmem => hnds.2.2 hmem (by simp)
  have hcons1 := List.nodup_cons.mp hnds.2.1
  have hiv : i ∉ j :: v' := hcons1.1
  have hji : j ≠ i := fun e => hiv (e ▸ List.mem_cons_self ..)
  have e0i : getBlock (setBlock a i { getBlock a i with free := true }) i
      = { getBlock a i with free := true } := getBlock_setBlock_self _ hlt
  have e0m : ∀ m, m ≠ i → getBlock (setBlock a i { getBlock a i with free := true }) m
      = getBlock a m := fun m hm => getBlock_setBlock_ne _ hm
  have hC0 : LinkedChain (setBlock a i { getBlock a i with free := true }) none
      (some a.head) (u ++ i :: j :: v') :=
    linkedChain_set_samelinks (b := { getBlock a i with free := true }) rfl rfl hC
  have hj0 : (getBlock (setBlock a i { getBlock a i with free := true }) j).free = true := by
    rw [e0m j hji]; exact hjfree
  obtain ⟨mh1, mh2, mh3, mchain, mgi, mvother, mother⟩ := mergeNext_merge hC0 hj0
  -- the predecessor merge is a no-op
  have hfb : a.free_block i = mergeNext (setBlock a i { getBlock a i with free := true }) i := by
    show mergePrev (mergeNext (setBlock a i { getBlock a i with free := true }) i) i = _
    have hprev1 : (getBlock (mergeNext (setBlock a i
        { getBlock a i with free := true }) i) i).prev = (getBlock a i).prev := by
      rw [mgi, e0i]
    rcases List.eq_nil_or_concat u with rfl | ⟨u'', q, hq⟩
    · refine mergePrev_nil ?_
      rw [hprev1]
      simp only [List.nil_append] at hC
      rw [linkedChain_cons] at hC
      exact hC.2.1
    · have hq' : u = u'' ++ [q] := by simpa using hq
      subst hq'
      have hqi : q ≠ i := fun e => hiu (e ▸ by simp)
      have hqv : q ∉ j :: v' := fun hmem => hnds.2.2 (by simp) (List.mem_cons_of_mem _ hmem)
      refine mergePrev_notfree (p := q) ?_ ?_
      · rw [hprev1]
        exact linkedChain_prev_last u'' (by simpa using hC)
      · have hqk : ∀ k, v'.head? = some k → q ≠ k := by
          intro k hk e
          subst e
          rcases v' with _ | ⟨k0, v''⟩
          · simp at hk
          · obtain rfl : k0 = q := by simpa using hk
            exact hqv (by simp)
        rw [mother q hqi hqk, e0m q hqi]
        exact hpred q (by simp)
  refine ⟨by rw [hfb, mh1]; rfl, by rw [hfb, mh2]; rfl,
    by rw [hfb, mh3]; exact length_setBlock .., by rw [hfb]; exact mchain, ?_, ?_, ?_⟩
  · rw [hfb, mgi, e0m j hji, e0i]
    rfl
  · intro m hm
    rw [hfb]
    rw [mvother m hm]
    have := e0m m hm
    rw [this]
  · rw [hfb]
    refine viewOf_from_pointwise ?_ ?_ ?_
    · rw [mgi, e0m j hji, e0i]
      rfl
    · intro m hm
      have hmi : m ≠ i := fun e => hiu (e ▸ hm)
      rw [mvother m hmi, e0m m hmi]
    · intro m hm
      have hmi : m ≠ i := fun e => hiv (List.mem_cons_of_mem _ (e ▸ hm))
      rw [mvother m hmi, e0m m hmi]

/-- Releasing a block whose predecessor is free (successor absent or used):
the predecessor absorbs the block. -/
theorem free_block_case_pred {a : MemoryAllocator} {u' v : List Nat} {p i : Nat}
    (hC : LinkedChain a none (some a.head) ((u' ++ [p]) ++ i :: v))
    (hpfree : (getBlock a p).free = true)
    (hsucc : ∀ j, v.head? = some j → (getBlock a j).free = false) :
    (a.free_block i).head = a.head ∧
    (a.free_block i).total_memory = a.total_memory ∧
    (a.free_block i).blocks.length = a.blocks.length ∧
    LinkedChain (a.free_block i) none (some a.head) (u' ++ p :: v) ∧
    (getBlock (a.free_block i) p).view =
      ⟨(getBlock a p).start, (getBlock a p).size + (getBlock a i).size, true⟩ ∧
    (∀ m, m ≠ i → m ≠ p → (getBlock (a.free_block i) m).view = (getBlock a m).view) ∧
    viewOf (a.free_block i) (u' ++ p :: v) =
      viewOf a u' ++ ⟨(getBlock a p).start, (getBlock a p).size + (getBlock a i).size, true⟩
        :: viewOf a v := by
  have hbnd := hC.bound
  have hlt : i < a.blocks.length := hbnd i (by simp)
  have hnd := hC.nodup
  have hnd2 : (u' ++ p :: i :: v).Nodup := by simpa using hnd
  have hnds := List.nodup_append.mp hnd2
  have hpu : p ∉ u' := fun hmem => hnds.2.2 hmem (by simp)
  have hiu : i ∉ u' := fun hmem => hnds.2.2 hmem (by simp)
  have hcons1 := List.nodup_cons.mp hnds.2.1
  have hcons2 := List.nodup_cons.mp hcons1.2
  have hpi : p ≠ i := fun e => hcons1.1 (e ▸ List.mem_cons_self ..)
  have hip : i ≠ p := fun e => hpi e.symm
  have hpv : p ∉ v := fun hmem => hcons1.1 (List.mem_cons_of_mem _ hmem)
  have hiv : i ∉ v := hcons2.1
  have hnext : (getBlock a i).next = v.head? := linkedChain_next_eq (u' ++ [p]) hC
  have e0i : getBlock (setBlock a i { getBlock a i with free := true }) i
      = { getBlock a i with free := true } := getBlock_setBlock_self _ hlt
  have e0m : ∀ m, m ≠ i → getBlock (setBlock a i { getBlock a i with free := true }) m
      = getBlock a m := fun m hm => getBlock_setBlock_ne _ hm
  have hC0 : LinkedChain (setBlock a i { getBlock a i with free := true }) none
      (some a.head) ((u' ++ [p]) ++ i :: v) :=
    linkedChain_set_samelinks (b := { getBlock a i with free := true }) rfl rfl hC
  -- the successor merge is a no-op
  have hmn : mergeNext (setBlock a i { getBlock a i with free := true }) i
      = setBlock a i { getBlock a i with free := true } := by
    rcases hv : v with _ | ⟨j, v''⟩
    · refine mergeNext_nil ?_
      rw [e0i]
      show (getBlock a i).next = none
      rw [hnext, hv]
      rfl
    · have hji : j ≠ i := fun e => hiv (by rw [hv]; exact e ▸ List.mem_cons_self ..)
      refine mergeNext_notfree (j := j) ?_ ?_
      · rw [e0i]
        show (getBlock a i).next = some j
        rw [hnext, hv]
        rfl
      · rw [e0m j hji]
        exact hsucc j (by rw [hv]; rfl)
  have hp0 : (getBlock (setBlock a i { getBlock a i with free := true }) p).free = true := by
    rw [e0m p hpi]; exact hpfree
  obtain ⟨ph1, ph2, ph3, pchain, pgp, pvother, pother⟩ := mergePrev_merge hC0 hp0
  have hfb : a.free_block i
      = mergePrev (setBlock a i { getBlock a i with free := true }) i := by
    show mergePrev (mergeNext (setBlock a i { getBlock a i with free := true }) i) i = _
    rw [hmn]
  have hvp : (getBlock (a.free_block i) p).view =
      ⟨(getBlock a p).start, (getBlock a p).size + (getBlock a i).size, true⟩ := by
    rw [hfb, pgp, e0m p hpi, e0i]
    show BlockView.mk (getBlock a p).start
      ((getBlock a p).size + (getBlock a i).size) (getBlock a p).free = _
    rw [hpfree]
  refine ⟨by rw [hfb, ph1]; rfl, by rw [hfb, ph2]; rfl,
    by rw [hfb, ph3]; exact length_setBlock .., by rw [hfb]; exact pchain, hvp, ?_, ?_⟩
  · intro m hmi hmp
    rw [hfb, pvother m hmp, e0m m hmi]
  · rw [hfb]
    rw [← hfb]
    refine viewOf_from_pointwise hvp ?_ ?_
    · intro m hm
      have hmi : m ≠ i := fun e => hiu (e ▸ hm)
      have hmp : m ≠ p := fun e => hpu (e ▸ hm)
      rw [hfb, pvother m hmp, e0m m hmi]
    · intro m hm
      have hmi : m ≠ i := fun e => hiv (e ▸ hm)
      have hmp : m ≠ p := fun e => hpv (e ▸ hm)
      rw [hfb, pvother m hmp, e0m m hmi]

/-- Releasing a block with both neighbors free: predecessor, block and
successor coalesce into one free block. -/
theorem free_block_case_both {a : MemoryAllocator} {u' v' : List Nat} {p i j : Nat}
    (hC : LinkedChain a none (some a.head) ((u' ++ [p]) ++ i :: j :: v'))
    (hpfree : (getBlock a p).free = true)
    (hjfree : (getBlock a j).free = true) :
    (a.free_block i).head = a.head ∧
    (a.free_block i).total_memory = a.total_memory ∧
    (a.free_block i).blocks.length = a.blocks.length ∧
    LinkedChain (a.free_block i) none (some a.head) (u' ++ p :: v') ∧
    (getBlock (a.free_block i) p).view =
      ⟨(getBlock a p).start,
        (getBlock a p).size + ((getBlock a i).size + (getBlock a j).size), true⟩ ∧
    (∀ m, m ≠ i → m ≠ p → (getBlock (a.free_block i) m).view = (getBlock a m).view) ∧
    viewOf (a.free_block i) (u' ++ p :: v') =
      viewOf a u' ++ ⟨(getBlock a p).start,
        (getBlock a p).size + ((getBlock a i).size + (getBlock a j).size), true⟩
        :: viewOf a v' := by
  have hbnd := hC.bound
  have hlt : i < a.blocks.length := hbnd i (by simp)
  have hnd := hC.nodup
  have hnd2 : (u' ++ p :: i :: j :: v').Nodup := by simpa using hnd
  have hnds := List.nodup_append.mp hnd2
  have hpu : p ∉ u' := fun hmem => hnds.2.2 hmem (by simp)
  have hiu : i ∉ u' := fun hmem => hnds.2.2 hmem (by simp)
  have hcons1 := List.nodup_cons.mp hnds.2.1
  have hcons2 := List.nodup_cons.mp hcons1.2
  have hcons3 := List.nodup_cons.mp hcons2.2
  have hpi : p ≠ i := fun e => hcons1.1 (e ▸ List.mem_cons_self ..)
  have hpj : p ≠ j := fun e => hcons1.1 (e ▸ by simp)
  have hpv : p ∉ v' := fun hmem => hcons1.1 (by simp [hmem])
  have hij : i ≠ j := fun e => hcons2.1 (e ▸ List.mem_cons_self ..)
  have hji : j ≠ i := fun e => hij e.symm
  have hiv : i ∉ v' := fun hmem => hcons2.1 (by simp [hmem])
  have hjv : j ∉ v' := hcons3.1
  have e0i : getBlock (setBlock a i { getBlock a i with free := true }) i
      = { getBlock a i with free := true } := getBlock_setBlock_self _ hlt
  have e0m : ∀ m, m ≠ i → getBlock (setBlock a i { getBlock a i with free := true }) m
      = getBlock a m := fun m hm => getBlock_setBlock_ne _ hm
  have hC0 : LinkedChain (setBlock a i { getBlock a i with free := true }) none
      (some a.head) ((u' ++ [p]) ++ i :: j :: v') :=
    linkedChain_set_samelinks (b := { getBlock a i with free := true }) rfl rfl hC
  have hj0 : (getBlock (setBlock a i { getBlock a i with free := true }) j).free = true := by
    rw [e0m j hji]; exact hjfree
  obtain ⟨mh1, mh2, mh3, mchain, mgi, mvother, mother⟩ := mergeNext_merge hC0 hj0
  have hpk : ∀ k, v'.head? = some k → p ≠ k := by
    intro k hk e
    subst e
    rcases v' with _ | ⟨k0, v''⟩
    · simp at hk
    · obtain rfl : k0 = p := by simpa using hk
      exact hpv (by simp)
  have hp1 : (getBlock (mergeNext (setBlock a i
      { getBlock a i with free := true }) i) p).free = true := by
    rw [mother p hpi hpk, e0m p hpi]
    exact hpfree
  have mchain' : LinkedChain (mergeNext (setBlock a i
      { getBlock a i with free := true }) i) none
      (some (mergeNext (setBlock a i { getBlock a i with free := true }) i).head)
      ((u' ++ [p]) ++ i :: v') := by
    rw [mh1]
    exact mchain
  obtain ⟨ph1, ph2, ph3, pchain, pgp, pvother, pother⟩ := mergePrev_merge mchain' hp1
  have hfb : a.free_block i = mergePrev (mergeNext (setBlock a i
      { getBlock a i with free := true }) i) i := rfl
  have hvp : (getBlock (a.free_block i) p).view =
      ⟨(getBlock a p).start,
        (getBlock a p).size + ((getBlock a i).size + (getBlock a j).size), true⟩ := by
    rw [hfb, pgp, mother p hpi hpk, e0m p hpi, mgi, e0m j hji, e0i]
    show BlockView.mk (getBlock a p).start
      ((getBlock a p).size + ((getBlock a i).size + (getBlock a j).size))
      (getBlock a p).free = _
    rw [hpfree]
  have hvoth : ∀ m, m ≠ i → m ≠ p →
      (getBlock (a.free_block i) m).view = (getBlock a m).view := by
    intro m hmi hmp
    rw [hfb, pvother m hmp, mvother m hmi, e0m m hmi]
  refine ⟨by rw [hfb, ph1, mh1]; rfl, by rw [hfb, ph2, mh2]; rfl,
    by rw [hfb, ph3, mh3]; exact length_setBlock .., ?_, hvp, hvoth, ?_⟩
  · have := pchain
    rw [mh1] at this
    rw [hfb]
    exact this
  · refine viewOf_from_pointwise hvp ?_ ?_
    · intro m hm
      exact hvoth m (fun e => hiu (e ▸ hm)) (fun e => hpu (e ▸ hm))
    · intro m hm
      exact hvoth m (fun e => hiv (e ▸ hm)) (fun e => hpv (e ▸ hm))

/- Pure preservation of the arena invariants under block replacement. -/

theorem sumSizes_pos {l : List BlockView} (hp : allPos l) (hne : l ≠ []) :
    0 < sumSizes l := by
  cases l with
  | nil => exact absurd rfl hne
  | cons b t =>
    rw [sumSizes_cons]
    have hb : 0 < b.size := hp b (List.mem_cons_self ..)
    have ht : 0 ≤ sumSizes t := by
      clear hne hb
      induction t with
      | nil => simp [sumSizes]
      | cons c t2 ih =>
        rw [sumSizes_cons]
        have := hp c (List.mem_cons_of_mem _ (List.mem_cons_self ..))
        have := ih fun x hx => hp x (by rcases List.mem_cons.mp hx with rfl | hx2
                                        · exact List.mem_cons_self ..
                                        · exact List.mem_cons_of_mem _ (List.mem_cons_of_mem _ hx2))
        omega
    omega

/-- Replacing a nonempty contiguous segment by one block with the same
start and total size preserves all arena invariants provided the new block
does not create an adjacent free pair at the two seams. -/
theorem good_replace_single {tm : Int} {vu vv X : List BlockView} {y : BlockView}
    (h : Good tm (vu ++ (X ++ vv)))
    (hXne : X ≠ [])
    (hystart : ∀ s : Int, contigFrom s X → y.start = s)
    (hysum : y.size = sumSizes X)
    (hleft : ∀ yy ∈ vu.getLast?, freeSep yy y)
    (hright : ∀ yy ∈ vv.head?, freeSep y yy) :
    Good tm (vu ++ y :: vv) := by
  obtain ⟨hne, hcontig, hsum, hpos, hadj⟩ := h
  rw [contigFrom_append, contigFrom_append] at hcontig
  obtain ⟨hcu, hcX, hcv⟩ := hcontig
  have hposu : allPos vu := (allPos_append.mp hpos).1
  have hposXv := (allPos_append.mp hpos).2
  have hposX : allPos X := (allPos_append.mp hposXv).1
  have hposv : allPos vv := (allPos_append.mp hposXv).2
  rw [noAdjFree] at hadj
  rw [List.chain'_append] at hadj
  have hcvu : List.Chain' freeSep vu := hadj.1
  have hcXvv := hadj.2.1
  rw [List.chain'_append] at hcXvv
  refine ⟨by simp, ?_, ?_, ?_, ?_⟩
  · rw [contigFrom_append, contigFrom_cons]
    refine ⟨hcu, hystart _ hcX, ?_⟩
    have : 0 + sumSizes vu + y.size = 0 + sumSizes vu + sumSizes X := by rw [hysum]
    rw [this]
    exact hcv
  · rw [sumSizes_append, sumSizes_cons, hysum]
    rw [sumSizes_append, sumSizes_append] at hsum
    omega
  · rw [allPos_append, allPos_cons]
    refine ⟨hposu, ?_, hposv⟩
    rw [hysum]
    exact sumSizes_pos hposX hXne
  · rw [noAdjFree_middle_iff]
    exact ⟨hcvu, hcXvv.2.1, hleft, hright⟩

theorem good_set_used {tm : Int} {vu vv : List BlockView} {s0 z : Int}
    (h : Good tm (vu ++ (⟨s0, z, true⟩ :: vv))) :
    Good tm (vu ++ (⟨s0, z, false⟩ :: vv)) := by
  refine good_replace_single (X := [⟨s0, z, true⟩]) h (by simp) ?_ (by simp [sumSizes]) ?_ ?_
  · intro s hs
    exact hs.1
  · intro yy _
    exact Or.inr rfl
  · intro yy _
    exact Or.inl rfl

theorem good_mark_free {tm : Int} {vu vv : List BlockView} {s0 z : Int}
    (h : Good tm (vu ++ (⟨s0, z, false⟩ :: vv)))
    (hl : ∀ y ∈ vu.getLast?, y.free = false)
    (hr : ∀ y ∈ vv.head?, y.free = false) :
    Good tm (vu ++ (⟨s0, z, true⟩ :: vv)) := by
  refine good_replace_single (X := [⟨s0, z, false⟩]) h (by simp) ?_ (by simp [sumSizes]) ?_ ?_
  · intro s hs
    exact hs.1
  · intro yy hyy
    exact Or.inl (hl yy hyy)
  · intro yy hyy
    exact Or.inr (hr yy hyy)

theorem good_merge_succ {tm : Int} {vu vv : List BlockView} {s0 z s1 z1 : Int}
    (h : Good tm (vu ++ (⟨s0, z, false⟩ :: ⟨s1, z1, true⟩ :: vv)))
    (hl : ∀ y ∈ vu.getLast?, y.free = false) :
    Good tm (vu ++ (⟨s0, z + z1, true⟩ :: vv)) := by
  have hr : ∀ yy ∈ vv.head?, freeSep ⟨s0, z + z1, true⟩ yy := by
    have hadj := h.2.2.2.2
    rw [noAdjFree, List.chain'_append] at hadj
    have h2 := hadj.2.1
    rw [List.chain'_cons'] at h2
    have h3 := h2.2
    rw [List.chain'_cons'] at h3
    intro yy hyy
    rcases h3.1 yy hyy with hc | hc
    · exact absurd hc (by simp)
    · exact Or.inr hc
  refine good_replace_single (X := [⟨s0, z, false⟩, ⟨s1, z1, true⟩]) h (by simp) ?_
    (by simp [sumSizes]) ?_ hr
  · intro s hs
    exact hs.1
  · intro yy hyy
    exact Or.inl (hl yy hyy)

theorem good_merge_pred {tm : Int} {vu vv : List BlockView} {sp zp s0 z : Int}
    (h : Good tm (vu ++ (⟨sp, zp, true⟩ :: ⟨s0, z, false⟩ :: vv)))
    (hr : ∀ y ∈ vv.head?, y.free = false) :
    Good tm (vu ++ (⟨sp, zp + z, true⟩ :: vv)) := by
  have hl : ∀ yy ∈ vu.getLast?, freeSep yy ⟨sp, zp + z, true⟩ := by
    have hadj := h.2.2.2.2
    rw [noAdjFree, List.chain'_append] at hadj
    intro yy hyy
    rcases hadj.2.2 yy hyy ⟨sp, zp, true⟩ (by simp) with hc | hc
    · exact Or.inl hc
    · exact absurd hc (by simp)
  refine good_replace_single (X := [⟨sp, zp, true⟩, ⟨s0, z, false⟩]) h (by simp) ?_
    (by simp [sumSizes]) hl ?_
  · intro s hs
    exact hs.1
  · intro yy hyy
    exact Or.inr (hr yy hyy)

theorem good_merge_both {tm : Int} {vu vv : List BlockView} {sp zp s0 z s1 z1 : Int}
    (h : Good tm (vu ++ (⟨sp, zp, true⟩ :: ⟨s0, z, false⟩ :: ⟨s1, z1, true⟩ :: vv))) :
    Good tm (vu ++ (⟨sp, zp + (z + z1), true⟩ :: vv)) := by
  have hl : ∀ yy ∈ vu.getLast?, freeSep yy ⟨sp, zp + (z + z1), true⟩ := by
    have hadj := h.2.2.2.2
    rw [noAdjFree, List.chain'_append] at hadj
    intro yy hyy
    rcases hadj.2.2 yy hyy ⟨sp, zp, true⟩ (by simp) with hc | hc
    · exact Or.inl hc
    · exact absurd hc (by simp)
  have hr : ∀ yy ∈ vv.head?, freeSep ⟨sp, zp + (z + z1), true⟩ yy := by
    have hadj := h.2.2.2.2
    rw [noAdjFree, List.chain'_append] at hadj
    have h2 := hadj.2.1
    rw [List.chain'_cons'] at h2
    have h3 := h2.2
    rw [List.chain'_cons'] at h3
    have h4 := h3.2
    rw [List.chain'_cons'] at h4
    intro yy hyy
    rcases h4.1 yy hyy with hc | hc
    · exact absurd hc (by simp)
    · exact Or.inr hc
  refine good_replace_single
    (X := [⟨sp, zp, true⟩, ⟨s0, z, false⟩, ⟨s1, z1, true⟩]) h (by simp) ?_
    (by simp [sumSizes]) hl hr
  · intro s hs
    exact hs.1

theorem good_split {tm : Int} {vu vv : List BlockView} {s0 z size : Int}
    (h : Good tm (vu ++ (⟨s0, z, true⟩ :: vv))) (hpos : 0 < size) (hlt : size < z) :
    Good tm (vu ++ (⟨s0, size, false⟩ :: ⟨s0 + size, z - size, true⟩ :: vv)) := by
  obtain ⟨hne, hcontig, hsum, hposa, hadj⟩ := h
  rw [contigFrom_append, contigFrom_cons] at hcontig
  obtain ⟨hcu, hstart, hcv⟩ := hcontig
  dsimp only at hstart hcv
  have hposu : allPos vu := (allPos_append.mp hposa).1
  have hposcons := (allPos_append.mp hposa).2
  rw [allPos_cons] at hposcons
  dsimp only at hposcons
  rw [noAdjFree, List.chain'_append, List.chain'_cons'] at hadj
  refine ⟨by simp, ?_, ?_, ?_, ?_⟩
  · rw [contigFrom_append, contigFrom_cons, contigFrom_cons]
    dsimp only
    refine ⟨hcu, hstart, by rw [hstart], ?_⟩
    have heq : 0 + sumSizes vu + size + (z - size) = 0 + sumSizes vu + z := by ring
    rw [heq]
    exact hcv
  · rw [sumSizes_append, sumSizes_cons, sumSizes_cons]
    dsimp only
    rw [sumSizes_append, sumSizes_cons] at hsum
    dsimp only at hsum
    omega
  · rw [allPos_append, allPos_cons, allPos_cons]
    dsimp only
    exact ⟨hposu, hpos, by omega, hposcons.2⟩
  · rw [noAdjFree_middle_iff, noAdjFree_cons_iff]
    refine ⟨hadj.1, ⟨?_, hadj.2.1.2⟩, ?_, ?_⟩
    · intro yy hyy
      rcases hadj.2.1.1 yy hyy with hc | hc
      · exact absurd hc (by simp)
      · exact Or.inr hc
    · intro yy hyy
      exact Or.inr rfl
    · intro yy _
      exact Or.inl rfl

/- Preservation of the full invariant by the public operations. -/

theorem mem_eraseIdx_ne {α : Type} [DecidableEq α] :
    ∀ (l : List α) (k : Nat) (hk : k < l.length), l.Nodup →
      ∀ x ∈ l.eraseIdx k, x ≠ l.get ⟨k, hk⟩ := by
  intro l
  induction l with
  | nil => intro k hk; intro _ x hx; cases hx
  | cons a t ih =>
    intro k hk hnd x hx
    cases k with
    | zero =>
      simp only [List.eraseIdx] at hx
      intro e
      have e2 : x = a := e
      exact (List.nodup_cons.mp hnd).1 (e2 ▸ hx)
    | succ k' =>
      simp only [List.eraseIdx] at hx
      rcases List.mem_cons.mp hx with rfl | hx2
      · intro e
        exact (List.nodup_cons.mp hnd).1 (e ▸ List.get_mem ..)
      · exact ih k' (by simpa using hk) (List.nodup_cons.mp hnd).2 x hx2

theorem wfs_init {tm : Int} (hpos : 0 < tm) : WFS ⟨MemoryAllocator.init tm, []⟩ := by
  refine ⟨[0], ⟨rfl, rfl, by simp [MemoryAllocator.init], rfl⟩, ?_, List.nodup_nil, by simp⟩
  show Good tm [⟨0, tm, true⟩]
  refine ⟨by simp, ⟨rfl, trivial⟩, by simp [sumSizes], ?_, List.chain'_singleton _⟩
  intro b hb
  rw [List.mem_singleton] at hb
  subst hb
  exact hpos

theorem wfs_alloc (s : SimState) (size : Int) (hpos : 0 < size) (h : WFS s) :
    WFS ⟨(s.heap.first_fit size).1, pushHandle s.handles (s.heap.first_fit size).2⟩ ∧
    (s.heap.first_fit size).1.total_memory = s.heap.total_memory := by
  obtain ⟨is, hchain, hgood, hnodup, hhandles⟩ := h
  rcases exists_first_split
      (fun m => (getBlock s.heap m).free = true ∧ size ≤ (getBlock s.heap m).size) is
    with hno | ⟨u, i, v, rfl, hu, hi⟩
  · rw [first_fit_none hchain hno]
    exact ⟨⟨is, hchain, hgood, hnodup, hhandles⟩, rfl⟩
  · have hff := first_fit_found hchain hu hi.1 hi.2
    have hnd := hchain.nodup
    have hnds := List.nodup_append.mp hnd
    have hiu : i ∉ u := fun hmem => hnds.2.2 hmem (by simp)
    have hiv : i ∉ v := (List.nodup_cons.mp hnds.2.1).1
    have hlt : i < s.heap.blocks.length := hchain.bound i (by simp)
    have hinoth : i ∉ s.handles := fun hmem => by
      have := (hhandles i hmem).2
      rw [hi.1] at this
      cases this
    have hvi : (getBlock s.heap i).view =
        ⟨(getBlock s.heap i).start, (getBlock s.heap i).size, true⟩ := by
      show BlockView.mk _ _ (getBlock s.heap i).free = _
      rw [hi.1]
    have hgood' : Good s.heap.total_memory (viewOf s.heap u ++
        (⟨(getBlock s.heap i).start, (getBlock s.heap i).size, true⟩ :: viewOf s.heap v)) := by
      rw [← hvi, ← viewOf_cons, ← viewOf_append]
      exact hgood
    by_cases hexact : (getBlock s.heap i).size = size
    · rw [hff]
      dsimp only
      rw [allocate_block_snd, allocate_block_exact hexact]
      dsimp only [pushHandle]
      refine ⟨⟨u ++ i :: v, ?_, ?_, ?_, ?_⟩, rfl⟩
      · exact linkedChain_set_samelinks (b := { getBlock s.heap i with free := false })
          rfl rfl hchain
      · show Good s.heap.total_memory _
        rw [viewOf_set_decomp hlt hiu hiv]
        exact good_set_used hgood'
      · rw [List.nodup_append]
        refine ⟨hnodup, by simp, ?_⟩
        intro x hx hx2
        rw [List.mem_singleton] at hx2
        subst hx2
        exact hinoth hx
      · intro x hx
        rcases List.mem_append.mp hx with hx | hx
        · obtain ⟨hxis, hxused⟩ := hhandles x hx
          have hxi : x ≠ i := fun e => hinoth (e ▸ hx)
          refine ⟨hxis, ?_⟩
          rw [getBlock_setBlock_ne _ hxi]
          exact hxused
        · rw [List.mem_singleton] at hx
          subst hx
          refine ⟨by simp, ?_⟩
          rw [getBlock_setBlock_self _ hlt]
    · obtain ⟨asnd, ahead, atm, alen, achain, agi, agn, aview, afree⟩ :=
        allocate_block_split hchain hexact
      rw [hff]
      dsimp only
      rw [asnd]
      dsimp only [pushHandle]
      refine ⟨⟨u ++ i :: s.heap.blocks.length :: v, ?_, ?_, ?_, ?_⟩, atm⟩
      · dsimp only
        rw [ahead]
        exact achain
      · dsimp only
        rw [atm, aview]
        exact good_split hgood' hpos (lt_of_le_of_ne hi.2 fun e => hexact e.symm)
      · rw [List.nodup_append]
        refine ⟨hnodup, by simp, ?_⟩
        intro x hx hx2
        rw [List.mem_singleton] at hx2
        subst hx2
        exact hinoth hx
      · intro x hx
        rcases List.mem_append.mp hx with hx | hx
        · obtain ⟨hxis, hxused⟩ := hhandles x hx
          have hxi : x ≠ i := fun e => hinoth (e ▸ hx)
          refine ⟨?_, ?_⟩
          · simp only [List.mem_append, List.mem_cons] at hxis ⊢
            tauto
          · rw [afree x hxi]
            exact hxused
        · rw [List.mem_singleton] at hx
          subst hx
          refine ⟨by simp, ?_⟩
          rw [agi]

theorem viewOf_getLast?_free {a : MemoryAllocator} {u : List Nat}
    (h : ∀ q, u.getLast? = some q → (getBlock a q).free = false) :
    ∀ y ∈ (viewOf a u).getLast?, y.free = false := by
  intro y hy
  rw [viewOf, List.getLast?_map] at hy
  rcases hq : u.getLast? with _ | q
  · rw [hq] at hy; cases hy
  · rw [hq] at hy
    obtain rfl : y = (getBlock a q).view := by simpa using hy.symm
    show (getBlock a q).free = false
    exact h q hq

theorem viewOf_head?_free {a : MemoryAllocator} {v : List Nat}
    (h : ∀ q, v.head? = some q → (getBlock a q).free = false) :
    ∀ y ∈ (viewOf a v).head?, y.free = false := by
  intro y hy
  rw [viewOf, List.head?_map] at hy
  rcases hq : v.head? with _ | q
  · rw [hq] at hy; cases hy
  · rw [hq] at hy
    obtain rfl : y = (getBlock a q).view := by simpa using hy.symm
    show (getBlock a q).free = false
    exact h q hq

theorem wfs_rel (s : SimState) (k : Nat) (hk : k < s.handles.length) (h : WFS s) :
    WFS ⟨s.heap.free_block (s.handles.get ⟨k, hk⟩), s.handles.eraseIdx k⟩ ∧
    (s.heap.free_block (s.handles.get ⟨k, hk⟩)).total_memory = s.heap.total_memory := by
  obtain ⟨is, hchain, hgood, hnodup, hhandles⟩ := h
  set i := s.handles.get ⟨k, hk⟩ with hidef
  have himem : i ∈ s.handles := by rw [hidef]; exact List.get_mem ..
  obtain ⟨hiis, hiused⟩ := hhandles i himem
  obtain ⟨u, v, rfl⟩ := List.append_of_mem hiis
  have herasesub : ∀ x ∈ s.handles.eraseIdx k, x ∈ s.handles :=
    fun x hx => List.Sublist.mem hx (List.eraseIdx_sublist ..)
  have herasend : (s.handles.eraseIdx k).Nodup :=
    hnodup.sublist (List.eraseIdx_sublist ..)
  have herasene : ∀ x ∈ s.handles.eraseIdx k, x ≠ i := by
    intro x hx
    rw [hidef]
    exact mem_eraseIdx_ne s.handles k hk hnodup x hx
  have hvi : (getBlock s.heap i).view =
      ⟨(getBlock s.heap i).start, (getBlock s.heap i).size, false⟩ := by
    show BlockView.mk _ _ (getBlock s.heap i).free = _
    rw [hiused]
  have hgood' : Good s.heap.total_memory (viewOf s.heap u ++
      (⟨(getBlock s.heap i).start, (getBlock s.heap i).size, false⟩ :: viewOf s.heap v)) := by
    rw [← hvi, ← viewOf_cons, ← viewOf_append]
    exact hgood
  have hsucca : (∀ jj, v.head? = some jj → (getBlock s.heap jj).free = false) ∨
      (∃ j v₂, v = j :: v₂ ∧ (getBlock s.heap j).free = true) := by
    rcases v with _ | ⟨j, v₂⟩
    · exact Or.inl (by intro jj h2; simp at h2)
    · cases hjf : (getBlock s.heap j).free with
      | false =>
        refine Or.inl ?_
        intro jj h2
        obtain rfl : jj = j := by simpa using h2.symm
        exact hjf
      | true => exact Or.inr ⟨j, v₂, rfl, hjf⟩
  have hpreda : (∀ pp, u.getLast? = some pp → (getBlock s.heap pp).free = false) ∨
      (∃ u₂ p, u = u₂ ++ [p] ∧ (getBlock s.heap p).free = true) := by
    rcases List.eq_nil_or_concat u with rfl | ⟨u₂, p, hup⟩
    · exact Or.inl (by intro pp h2; simp at h2)
    · rw [List.concat_eq_append] at hup
      subst hup
      cases hpf : (getBlock s.heap p).free with
      | false =>
        refine Or.inl ?_
        intro pp h2
        obtain rfl : pp = p := by simpa using h2.symm
        exact hpf
      | true => exact Or.inr ⟨u₂, p, rfl, hpf⟩
  rcases hsucca with hsN | ⟨j, v', rfl, hjf⟩
  · rcases hpreda with hpN | ⟨u', p, rfl, hpf⟩
    · -- no free neighbor
      obtain ⟨fh1, fh2, fh3, fchain, fvi, fvoth, fview⟩ := free_block_case_none hchain hsN hpN
      refine ⟨⟨u ++ i :: v, ?_, ?_, herasend, ?_⟩, fh2⟩
      · dsimp only
        rw [fh1]
        exact fchain
      · dsimp only
        rw [fh2, fview]
        exact good_mark_free hgood' (viewOf_getLast?_free hpN) (viewOf_head?_free hsN)
      · dsimp only
        intro x hx
        obtain ⟨hxis, hxused⟩ := hhandles x (herasesub x hx)
        have hxi := herasene x hx
        refine ⟨hxis, ?_⟩
        have hfx : (getBlock (s.heap.free_block i) x).free = (getBlock s.heap x).free :=
          congrArg BlockView.free (fvoth x hxi)
        rw [hfx]
        exact hxused
    · -- free predecessor only
      obtain ⟨fh1, fh2, fh3, fchain, fvp, fvoth, fview⟩ := free_block_case_pred hchain hpf hsN
      have hvp : (getBlock s.heap p).view =
          ⟨(getBlock s.heap p).start, (getBlock s.heap p).size, true⟩ := by
        show BlockView.mk _ _ (getBlock s.heap p).free = _
        rw [hpf]
      have hgood'' : Good s.heap.total_memory (viewOf s.heap u' ++
          (⟨(getBlock s.heap p).start, (getBlock s.heap p).size, true⟩ ::
            ⟨(getBlock s.heap i).start, (getBlock s.heap i).size, false⟩ ::
              viewOf s.heap v)) := by
        have hh := hgood'
        rw [viewOf_append, viewOf_cons, hvp] at hh
        simpa [viewOf_nil] using hh
      refine ⟨⟨u' ++ p :: v, ?_, ?_, herasend, ?_⟩, fh2⟩
      · dsimp only
        rw [fh1]
        exact fchain
      · dsimp only
        rw [fh2, fview]
        exact good_merge_pred hgood'' (viewOf_head?_free hsN)
      · dsimp only
        intro x hx
        obtain ⟨hxis, hxused⟩ := hhandles x (herasesub x hx)
        have hxi := herasene x hx
        have hxp : x ≠ p := by
          intro e
          have := e ▸ hxused
          rw [hpf] at this
          cases this
        refine ⟨?_, ?_⟩
        · simp only [List.mem_append, List.mem_cons] at hxis ⊢
          tauto
        · have hfx : (getBlock (s.heap.free_block i) x).free = (getBlock s.heap x).free :=
            congrArg BlockView.free (fvoth x hxi hxp)
          rw [hfx]
          exact hxused
  · rcases hpreda with hpN | ⟨u', p, rfl, hpf⟩
    · -- free successor only
      obtain ⟨fh1, fh2, fh3, fchain, fvi, fvoth, fview⟩ := free_block_case_succ hchain hjf hpN
      have hvj : (getBlock s.heap j).view =
          ⟨(getBlock s.heap j).start, (getBlock s.heap j).size, true⟩ := by
        show BlockView.mk _ _ (getBlock s.heap j).free = _
        rw [hjf]
      have hgood'' : Good s.heap.total_memory (viewOf s.heap u ++
          (⟨(getBlock s.heap i).start, (getBlock s.heap i).size, false⟩ ::
            ⟨(getBlock s.heap j).start, (getBlock s.heap j).size, true⟩ ::
              viewOf s.heap v')) := by
        have hh := hgood'
        rw [viewOf_cons, hvj] at hh
        exact hh
      refine ⟨⟨u ++ i :: v', ?_, ?_, herasend, ?_⟩, fh2⟩
      · dsimp only
        rw [fh1]
        exact fchain
      · dsimp only
        rw [fh2, fview]
        exact good_merge_succ hgood'' (viewOf_getLast?_free hpN)
      · dsimp only
        intro x hx
        obtain ⟨hxis, hxused⟩ := hhandles x (herasesub x hx)
        have hxi := herasene x hx
        have hxj : x ≠ j := by
          intro e
          have := e ▸ hxused
          rw [hjf] at this
          cases this
        refine ⟨?_, ?_⟩
        · simp only [List.mem_append, List.mem_cons] at hxis ⊢
          tauto
        · have hfx : (getBlock (s.heap.free_block i) x).free = (getBlock s.heap x).free :=
            congrArg BlockView.free (fvoth x hxi)
          rw [hfx]
          exact hxused
    · -- both neighbors free
      obtain ⟨fh1, fh2, fh3, fchain, fvp, fvoth, fview⟩ := free_block_case_both hchain hpf hjf
      have hvp : (getBlock s.heap p).view =
          ⟨(getBlock s.heap p).start, (getBlock s.heap p).size, true⟩ := by
        show BlockView.mk _ _ (getBlock s.heap p).free = _
        rw [hpf]
      have hvj : (getBlock s.heap j).view =
          ⟨(getBlock s.heap j).start, (getBlock s.heap j).size, true⟩ := by
        show BlockView.mk _ _ (getBlock s.heap j).free = _
        rw [hjf]
      have hgood'' : Good s.heap.total_memory (viewOf s.heap u' ++
          (⟨(getBlock s.heap p).start, (getBlock s.heap p).size, true⟩ ::
            ⟨(getBlock s.heap i).start, (getBlock s.heap i).size, false⟩ ::
              ⟨(getBlock s.heap j).start, (getBlock s.heap j).size, true⟩ ::
                viewOf s.heap v')) := by
        have hh := hgood'
        rw [viewOf_append, viewOf_cons, hvp] at hh
        rw [show viewOf s.heap (j :: v') = ⟨(getBlock s.heap j).start,
          (getBlock s.heap j).size, true⟩ :: viewOf s.heap v' from by
            rw [viewOf_cons, hvj]] at hh
        simpa [viewOf_nil] using hh
      refine ⟨⟨u' ++ p :: v', ?_, ?_, herasend, ?_⟩, fh2⟩
      · dsimp only
        rw [fh1]
        exact fchain
      · dsimp only
        rw [fh2, fview]
        exact good_merge_both hgood''
      · dsimp only
        intro x hx
        obtain ⟨hxis, hxused⟩ := hhandles x (herasesub x hx)
        have hxi := herasene x hx
        have hxp : x ≠ p := by
          intro e
          have := e ▸ hxused
          rw [hpf] at this
          cases this
        have hxj : x ≠ j := by
          intro e
          have := e ▸ hxused
          rw [hjf] at this
          cases this
        refine ⟨?_, ?_⟩
        · simp only [List.mem_append, List.mem_cons] at hxis ⊢
          tauto
        · have hfx : (getBlock (s.heap.free_block i) x).free = (getBlock s.heap x).free :=
            congrArg BlockView.free (fvoth x hxi hxp)
          rw [hfx]
          exact hxused

/-- The main reachability invariant: every properly used run keeps the
capacity field and the full arena invariant. -/
theorem reach_wfs {tm : Int} {s : SimState} (h : Reach tm s) :
    s.heap.total_memory = tm ∧ WFS s := by
  induction h with
  | init hpos => exact ⟨rfl, wfs_init hpos⟩
  | alloc s2 size hr hpos ih =>
    have h2 := wfs_alloc s2 size hpos ih.2
    exact ⟨h2.2.trans ih.1, h2.1⟩
  | rel s2 k hk hr ih =>
    have h2 := wfs_rel s2 k hk ih.2
    exact ⟨h2.2.trans ih.1, h2.1⟩

/- Ordering consequences of contiguity. -/

theorem contig_getLast :
    ∀ {l : List BlockView} {s : Int}, contigFrom s l →
      ∀ b ∈ l.getLast?, b.start + b.size = s + sumSizes l := by
  intro l
  induction l with
  | nil => intro s _ b hb; simp at hb
  | cons x t ih =>
    intro s hc b hb
    rw [contigFrom_cons] at hc
    obtain ⟨hx, ht⟩ := hc
    cases t with
    | nil =>
      obtain rfl : x = b := by simpa using hb
      rw [sumSizes_cons, sumSizes_nil, hx]
      ring
    | cons y t' =>
      rw [List.getLast?_cons_cons] at hb
      have := ih ht b hb
      rw [sumSizes_cons]
      omega

theorem contig_lower :
    ∀ {l : List BlockView} {s : Int}, contigFrom s l → allPos l →
      ∀ b ∈ l, s ≤ b.start := by
  intro l
  induction l with
  | nil => intro s _ _ b hb; cases hb
  | cons x t ih =>
    intro s hc hp b hb
    rw [contigFrom_cons] at hc
    obtain ⟨hx, ht⟩ := hc
    have hxp : 0 < x.size := hp x (List.mem_cons_self ..)
    rcases List.mem_cons.mp hb with rfl | hb2
    · omega
    · have := ih ht (fun c hc2 => hp c (List.mem_cons_of_mem _ hc2)) b hb2
      omega

theorem contig_pairwise :
    ∀ {l : List BlockView} {s : Int}, contigFrom s l → allPos l →
      List.Pairwise (fun x y : BlockView => x.start < y.start) l := by
  intro l
  induction l with
  | nil => intro s _ _; exact List.Pairwise.nil
  | cons x t ih =>
    intro s hc hp
    rw [contigFrom_cons] at hc
    obtain ⟨hx, ht⟩ := hc
    have hxp : 0 < x.size := hp x (List.mem_cons_self ..)
    have hpt : allPos t := fun c hc2 => hp c (List.mem_cons_of_mem _ hc2)
    refine List.pairwise_cons.mpr ⟨?_, ih ht hpt⟩
    intro y hy
    have := contig_lower ht hpt y hy
    omega

/-- Claim C1: for every arena built with positive total memory and every
properly used sequence of allocate and release calls, the traversed block
sequence always partitions [0, total_memory) with zero gaps, is strictly
ordered by start, starts at 0, ends at total_memory, has no two adjacent
free blocks, and has only blocks of strictly positive size. -/
theorem spec_C1 (tm : Int) (s : SimState) (h : Reach tm s) :
    traverseView s.heap ≠ [] ∧
    contigFrom 0 (traverseView s.heap) ∧
    (∀ b ∈ (traverseView s.heap).head?, b.start = 0) ∧
    (∀ b ∈ (traverseView s.heap).getLast?, b.start + b.size = tm) ∧
    List.Pairwise (fun x y : BlockView => x.start < y.start) (traverseView s.heap) ∧
    noAdjFree (traverseView s.heap) ∧
    allPos (traverseView s.heap) := by
  obtain ⟨htm, is, hchain, hgood, -, -⟩ := reach_wfs h
  rw [traverseView_eq hchain]
  obtain ⟨hne, hcontig, hsum, hpos, hadj⟩ := hgood
  rw [htm] at hsum
  refine ⟨hne, hcontig, ?_, ?_, contig_pairwise hcontig hpos, hadj, hpos⟩
  · intro b hb
    rcases hl : viewOf s.heap is with _ | ⟨x, t⟩
    · rw [hl] at hb; cases hb
    · rw [hl] at hb
      obtain rfl : b = x := by simpa using hb.symm
      rw [hl, contigFrom_cons] at hcontig
      exact hcontig.1
  · intro b hb
    have := contig_getLast hcontig b hb
    omega

/-- Claim C1, witness: the invariants hold after allocating 40 units from a
fresh 100-unit arena. -/
theorem spec_C1_w :
    traverseView s9a.1 ≠ [] ∧
    contigFrom 0 (traverseView s9a.1) ∧
    (∀ b ∈ (traverseView s9a.1).head?, b.start = 0) ∧
    (∀ b ∈ (traverseView s9a.1).getLast?, b.start + b.size = 100) ∧
    List.Pairwise (fun x y : BlockView => x.start < y.start) (traverseView s9a.1) ∧
    noAdjFree (traverseView s9a.1) ∧
    allPos (traverseView s9a.1) :=
  spec_C1 100 ⟨s9a.1, pushHandle [] s9a.2⟩
    (Reach.alloc ⟨MemoryAllocator.init 100, []⟩ 40 (Reach.init (by decide)) (by decide))

/-- Claim C2: the sum of the sizes of the traversed blocks always equals the
total memory the arena was built with. -/
theorem spec_C2 (tm : Int) (s : SimState) (h : Reach tm s) :
    sumSizes (traverseView s.heap) = tm ∧ s.heap.total_memory = tm := by
  obtain ⟨htm, is, hchain, hgood, -, -⟩ := reach_wfs h
  rw [traverseView_eq hchain]
  refine ⟨?_, htm⟩
  rw [← htm]
  exact hgood.2.2.1

/-- Claim C2, witness: conservation after allocating 40 from 100. -/
theorem spec_C2_w : sumSizes (traverseView s9a.1) = 100 ∧ s9a.1.total_memory = 100 :=
  spec_C2 100 ⟨s9a.1, pushHandle [] s9a.2⟩
    (Reach.alloc ⟨MemoryAllocator.init 100, []⟩ 40 (Reach.init (by decide)) (by decide))

/-- Claim C5: if no single block in the chain is both free and large enough,
allocation fails (returns no handle) and leaves the allocator, hence the
block sequence, completely unchanged — regardless of total free capacity. -/
theorem spec_C5 (a : MemoryAllocator) (size : Int) (is : List Nat)
    (hC : LinkedChain a none (some a.head) is) (_hpos : 0 < size)
    (hno : ∀ j ∈ is, ¬((getBlock a j).free = true ∧ size ≤ (getBlock a j).size)) :
    a.first_fit size = (a, none) :=
  first_fit_none hC hno

/-- Claim C5, witness: a fragmented arena with 20 units free in two blocks
of 10 rejects a request of 15 and is unchanged. -/
theorem spec_C5_w : c5heap.first_fit 15 = (c5heap, none) :=
  spec_C5 c5heap 15 [0, 1, 2] (by decide) (by decide) (by decide)

/-- Claim C6: when some free block can satisfy the request, first fit
selects the first match of the scan — under sortedness of the chain the
free block of lowest start among all adequate ones; concretely, the arena
[0,10) used, [10,30) free, [30,35) used, [35,85) free serves allocate(15)
from address 10, splitting it into used [10,25) and free [25,30). -/
theorem spec_C6 :
    (∀ (a : MemoryAllocator) (size : Int) (u v : List Nat) (i : Nat),
      LinkedChain a none (some a.head) (u ++ i :: v) →
      (∀ j ∈ u, ¬((getBlock a j).free = true ∧ size ≤ (getBlock a j).size)) →
      (getBlock a i).free = true → size ≤ (getBlock a i).size →
      List.Pairwise (fun x y : Nat => (getBlock a x).start < (getBlock a y).start)
        (u ++ i :: v) →
      (a.first_fit size).2 = some i ∧
      ∀ j ∈ u ++ i :: v, (getBlock a j).free = true → size ≤ (getBlock a j).size →
        (getBlock a i).start ≤ (getBlock a j).start) ∧
    ((c6heap.first_fit 15).2 = some 1 ∧
      traverseView (c6heap.first_fit 15).1 =
        [⟨0, 10, false⟩, ⟨10, 15, false⟩, ⟨25, 5, true⟩, ⟨30, 5, false⟩, ⟨35, 50, true⟩]) := by
  constructor
  · intro a size u v i hC hno hfree hsz hsorted
    have hff := first_fit_found hC hno hfree hsz
    refine ⟨by rw [hff]; dsimp only; rw [allocate_block_snd], ?_⟩
    intro j hj hjfree hjsz
    rcases List.mem_append.mp hj with hju | hjc
    · exact absurd ⟨hjfree, hjsz⟩ (hno j hju)
    · rcases List.mem_cons.mp hjc with rfl | hjv
      · exact le_refl _
      · have hpw := (List.pairwise_append.mp hsorted).2.1
        exact le_of_lt ((List.pairwise_cons.mp hpw).1 j hjv)
  · decide

/-- Claim C6, witness: in the concrete scenario, the block at address 10 is
the lowest-start adequate block and is the one selected. -/
theorem spec_C6_w :
    (c6heap.first_fit 15).2 = some 1 ∧
    ((getBlock c6heap 1).free = true ∧ (15 : Int) ≤ (getBlock c6heap 1).size) ∧
    (∀ j ∈ [0] ++ 1 :: [2, 3], (getBlock c6heap j).free = true →
      (15 : Int) ≤ (getBlock c6heap j).size →
      (getBlock c6heap 1).start ≤ (getBlock c6heap j).start) := by
  have h := spec_C6.1 c6heap 15 [0] [2, 3] 1 (by decide) (by decide) (by decide)
    (by decide) (by decide)
  exact ⟨h.1, by decide, h.2⟩

/-- Claim C7: a successful allocation either finds an exact fit — the block
is marked used in place and the traversal length is unchanged — or splits,
creating exactly one new free remainder of the leftover size at
start + size, spliced right after the now-used block of exactly the
requested size, so the traversal grows by one exactly on a split. -/
theorem spec_C7 (a : MemoryAllocator) (size : Int) (u v : List Nat) (i : Nat)
    (hC : LinkedChain a none (some a.head) (u ++ i :: v))
    (hno : ∀ j ∈ u, ¬((getBlock a j).free = true ∧ size ≤ (getBlock a j).size))
    (hfree : (getBlock a i).free = true) (hsz : size ≤ (getBlock a i).size) :
    (a.first_fit size).2 = some i ∧
    ((getBlock a i).size = size →
      (traverse (a.first_fit size).1).length = (traverse a).length ∧
      getBlock (a.first_fit size).1 i = { getBlock a i with free := false }) ∧
    ((getBlock a i).size ≠ size →
      (traverse (a.first_fit size).1).length = (traverse a).length + 1 ∧
      LinkedChain (a.first_fit size).1 none (some a.head)
        (u ++ i :: a.blocks.length :: v) ∧
      getBlock (a.first_fit size).1 i =
        { getBlock a i with size := size, free := false, next := some a.blocks.length } ∧
      getBlock (a.first_fit size).1 a.blocks.length =
        ⟨(getBlock a i).start + size, (getBlock a i).size - size, true, some i,
          (getBlock a i).next⟩) := by
  have hff := first_fit_found hC hno hfree hsz
  have hlt : i < a.blocks.length := hC.bound i (by simp)
  have hT : traverse a = (u ++ i :: v).map (getBlock a) := traverse_eq hC
  refine ⟨by rw [hff]; dsimp only; rw [allocate_block_snd], ?_, ?_⟩
  · intro hexact
    rw [hff]
    dsimp only
    rw [allocate_block_exact hexact]
    dsimp only
    constructor
    · have hchain' : LinkedChain (setBlock a i { getBlock a i with free := false }) none
          (some (setBlock a i { getBlock a i with free := false }).head) (u ++ i :: v) :=
        linkedChain_set_samelinks (b := { getBlock a i with free := false }) rfl rfl hC
      rw [traverse_eq hchain', hT]
      simp
    · exact getBlock_setBlock_self _ hlt
  · intro hne
    obtain ⟨asnd, ahead, atm, alen, achain, agi, agn, aview, afree⟩ :=
      allocate_block_split hC hne
    rw [hff]
    dsimp only
    refine ⟨?_, achain, agi, agn⟩
    have achain' : LinkedChain (a.allocate_block i size).1 none
        (some (a.allocate_block i size).1.head) (u ++ i :: a.blocks.length :: v) := by
      rw [ahead]
      exact achain
    rw [traverse_eq achain', hT]
    simp
    omega

/-- Claim C7, witness: in the concrete scenario, allocate(20) is an exact
fit on the block at address 10; the block count is unchanged and the block
is marked used in place. -/
theorem spec_C7_w :
    (c6heap.first_fit 20).2 = some 1 ∧
    (traverse (c6heap.first_fit 20).1).length = (traverse c6heap).length ∧
    getBlock (c6heap.first_fit 20).1 1 = { getBlock c6heap 1 with free := false } := by
  have h := spec_C7 c6heap 20 [0] [2, 3] 1 (by decide) (by decide) (by decide) (by decide)
  exact ⟨h.1, (h.2.1 (by decide)).1, (h.2.1 (by decide)).2⟩

/-- Claim C8: a valid release whose successor, predecessor, or both are free
coalesces them into a single free block whose size is the sum of the merged
sizes, and the absorbed neighbors disappear from the chain. -/
theorem spec_C8 :
    (∀ (a : MemoryAllocator) (u v' : List Nat) (i j : Nat),
      LinkedChain a none (some a.head) (u ++ i :: j :: v') →
      (getBlock a i).free = false → (getBlock a j).free = true →
      (∀ p, u.getLast? = some p → (getBlock a p).free = false) →
      LinkedChain (a.free_block i) none (some (a.free_block i).head) (u ++ i :: v') ∧
      (getBlock (a.free_block i) i).view =
        ⟨(getBlock a i).start, (getBlock a i).size + (getBlock a j).size, true⟩ ∧
      j ∉ u ++ i :: v') ∧
    (∀ (a : MemoryAllocator) (u' v : List Nat) (p i : Nat),
      LinkedChain a none (some a.head) ((u' ++ [p]) ++ i :: v) →
      (getBlock a i).free = false → (getBlock a p).free = true →
      (∀ jj, v.head? = some jj → (getBlock a jj).free = false) →
      LinkedChain (a.free_block i) none (some (a.free_block i).head) (u' ++ p :: v) ∧
      (getBlock (a.free_block i) p).view =
        ⟨(getBlock a p).start, (getBlock a p).size + (getBlock a i).size, true⟩ ∧
      i ∉ u' ++ p :: v) ∧
    (∀ (a : MemoryAllocator) (u' v' : List Nat) (p i j : Nat),
      LinkedChain a none (some a.head) ((u' ++ [p]) ++ i :: j :: v') →
      (getBlock a i).free = false → (getBlock a p).free = true →
      (getBlock a j).free = true →
      LinkedChain (a.free_block i) none (some (a.free_block i).head) (u' ++ p :: v') ∧
      (getBlock (a.free_block i) p).view =
        ⟨(getBlock a p).start,
          (getBlock a p).size + ((getBlock a i).size + (getBlock a j).size), true⟩ ∧
      i ∉ u' ++ p :: v' ∧ j ∉ u' ++ p :: v') := by
  refine ⟨?_, ?_, ?_⟩
  · intro a u v' i j hC hiused hjf hpN
    obtain ⟨fh1, fh2, fh3, fchain, fvi, fvoth, fview⟩ := free_block_case_succ hC hjf hpN
    have hnds := List.nodup_append.mp hC.nodup
    have hju : j ∉ u := fun hm => hnds.2.2 hm (by simp)
    have hcons1 := List.nodup_cons.mp hnds.2.1
    have hcons2 := List.nodup_cons.mp hcons1.2
    refine ⟨by rw [fh1]; exact fchain, fvi, ?_⟩
    intro hmem
    rcases List.mem_append.mp hmem with hm | hm
    · exact hju hm
    · rcases List.mem_cons.mp hm with hm2 | hm2
      · subst hm2
        exact hcons1.1 (List.mem_cons_self ..)
      · exact hcons2.1 hm2
  · intro a u' v p i hC hiused hpf hsN
    obtain ⟨fh1, fh2, fh3, fchain, fvp, fvoth, fview⟩ := free_block_case_pred hC hpf hsN
    have hnd2 : (u' ++ p :: i :: v).Nodup := by simpa using hC.nodup
    have hnds := List.nodup_append.mp hnd2
    have hiu : i ∉ u' := fun hm => hnds.2.2 hm (by simp)
    have hcons1 := List.nodup_cons.mp hnds.2.1
    have hcons2 := List.nodup_cons.mp hcons1.2
    refine ⟨by rw [fh1]; exact fchain, fvp, ?_⟩
    intro hmem
    rcases List.mem_append.mp hmem with hm | hm
    · exact hiu hm
    · rcases List.mem_cons.mp hm with hm2 | hm2
      · subst hm2
        exact hcons1.1 (List.mem_cons_self ..)
      · exact hcons2.1 hm2
  · intro a u' v' p i j hC hiused hpf hjf
    obtain ⟨fh1, fh2, fh3, fchain, fvp, fvoth, fview⟩ := free_block_case_both hC hpf hjf
    have hnd2 : (u' ++ p :: i :: j :: v').Nodup := by simpa using hC.nodup
    have hnds := List.nodup_append.mp hnd2
    have hiu : i ∉ u' := fun hm => hnds.2.2 hm (by simp)
    have hju : j ∉ u' := fun hm => hnds.2.2 hm (by simp)
    have hcons1 := List.nodup_cons.mp hnds.2.1
    have hcons2 := List.nodup_cons.mp hcons1.2
    have hcons3 := List.nodup_cons.mp hcons2.2
    refine ⟨by rw [fh1]; exact fchain, fvp, ?_, ?_⟩
    · intro hmem
      rcases List.mem_append.mp hmem with hm | hm
      · exact hiu hm
      · rcases List.mem_cons.mp hm with hm2 | hm2
        · subst hm2
          exact hcons1.1 (List.mem_cons_self ..)
        · exact hcons2.1 (List.mem_cons_of_mem _ hm2)
    · intro hmem
      rcases List.mem_append.mp hmem with hm | hm
      · exact hju hm
      · rcases List.mem_cons.mp hm with hm2 | hm2
        · subst hm2
          exact hcons1.1 (by simp)
        · exact hcons3.1 hm2

/-- Claim C8, witness: releasing the used block between two free blocks in
the concrete arena coalesces all three into one free block of size 35. -/
theorem spec_C8_w :
    LinkedChain (c8heap.free_block 1) none (some (c8heap.free_block 1).head)
      ([] ++ 0 :: []) ∧
    (getBlock (c8heap.free_block 1) 0).view =
      ⟨(getBlock c8heap 0).start,
        (getBlock c8heap 0).size + ((getBlock c8heap 1).size + (getBlock c8heap 2).size),
        true⟩ ∧
    1 ∉ [] ++ 0 :: ([] : List Nat) ∧ 2 ∉ [] ++ 0 :: ([] : List Nat) :=
  spec_C8.2.2 c8heap [] [] 0 1 2 (by decide) (by decide) (by decide) (by decide)

/-- Claim C10: with at least one free block present, allocate(0) does not
fail: it returns the first free block shrunk in place to size 0 and marked
used, and splices in a free remainder of the full original size at the same
start, so the positive-size invariant is violated — the size > 0
precondition is nowhere checked. -/
theorem spec_C10 (a : MemoryAllocator) (is : List Nat)
    (hC : LinkedChain a none (some a.head) is)
    (hpos : allPos (viewOf a is))
    (hfree : ∃ j ∈ is, (getBlock a j).free = true) :
    ∃ u i v, is = u ++ i :: v ∧ (getBlock a i).free = true ∧
      (∀ j ∈ u, (getBlock a j).free = false) ∧
      (a.first_fit 0).2 = some i ∧
      getBlock (a.first_fit 0).1 i =
        { getBlock a i with size := 0, free := false, next := some a.blocks.length } ∧
      getBlock (a.first_fit 0).1 a.blocks.length =
        ⟨(getBlock a i).start, (getBlock a i).size, true, some i, (getBlock a i).next⟩ ∧
      LinkedChain (a.first_fit 0).1 none (some a.head)
        (u ++ i :: a.blocks.length :: v) ∧
      ¬ allPos (viewOf (a.first_fit 0).1 (u ++ i :: a.blocks.length :: v)) := by
  rcases exists_first_split (fun m => (getBlock a m).free = true) is
    with hno | ⟨u, i, v, rfl, hu, hi⟩
  · obtain ⟨j, hjm, hjf⟩ := hfree
    exact absurd hjf (hno j hjm)
  · have hmemi : (getBlock a i).view ∈ viewOf a (u ++ i :: v) :=
      List.mem_map_of_mem _ (by simp)
    have hipos : 0 < (getBlock a i).size := hpos _ hmemi
    have hff : a.first_fit 0 = ((a.allocate_block i 0).1, some (a.allocate_block i 0).2) :=
      first_fit_found hC (fun j hj hcon => hu j hj hcon.1) hi (le_of_lt hipos)
    have hne0 : (getBlock a i).size ≠ 0 := by omega
    obtain ⟨asnd, ahead, atm, alen, achain, agi, agn, aview, afree⟩ :=
      allocate_block_split hC hne0
    rw [hff]
    dsimp only
    refine ⟨u, i, v, rfl, hi, ?_, by rw [asnd], agi, ?_, achain, ?_⟩
    · intro j hj
      have h2 := hu j hj
      revert h2
      cases (getBlock a j).free <;> simp
    · rw [agn]
      simp
    · rw [aview]
      intro hap
      have h2 := hap ⟨(getBlock a i).start, 0, false⟩ (by simp)
      simp at h2

/-- Claim C10, witness: on the fragmented arena, allocate(0) succeeds on the
first free block, leaves a zero-size used block, and breaks positivity. -/
theorem spec_C10_w :
    ∃ u i v, ([0, 1, 2] : List Nat) = u ++ i :: v ∧ (getBlock c5heap i).free = true ∧
      (∀ j ∈ u, (getBlock c5heap j).free = false) ∧
      (c5heap.first_fit 0).2 = some i ∧
      getBlock (c5heap.first_fit 0).1 i =
        { getBlock c5heap i with
            size := 0
            free := false
            next := some c5heap.blocks.length } ∧
      getBlock (c5heap.first_fit 0).1 c5heap.blocks.length =
        ⟨(getBlock c5heap i).start, (getBlock c5heap i).size, true, some i,
          (getBlock c5heap i).next⟩ ∧
      LinkedChain (c5heap.first_fit 0).1 none (some c5heap.head)
        (u ++ i :: c5heap.blocks.length :: v) ∧
      ¬ allPos (viewOf (c5heap.first_fit 0).1 (u ++ i :: c5heap.blocks.length :: v)) :=
  spec_C10 c5heap [0, 1, 2] (by decide) (by decide) (by decide)

/-- Claim C9: from a fresh 100-unit arena, allocate(40), allocate(30),
release of the first handle, allocate(35) all succeed; after the release the
traversal shows [0,40) free, [40,70) used, [70,100) free, and after the
final allocate(35) it shows [0,35) used, [35,40) free, [40,70) used,
[70,100) free. -/
theorem spec_C9 :
    s9a.2 = some 0 ∧ s9b.2 = some 1 ∧
    traverseView s9c = [⟨0, 40, true⟩, ⟨40, 30, false⟩, ⟨70, 30, true⟩] ∧
    s9d.2 = some 0 ∧
    traverseView s9d.1 = [⟨0, 35, false⟩, ⟨35, 5, true⟩, ⟨40, 30, false⟩, ⟨70, 30, true⟩] := by
  decide

/-- Claim C3, counterexample: releasing the stale handle 1 a second time
does not fail and does not leave the block sequence unchanged: the arena
goes from the single free block (0,100) to a corrupted single block
(0,160). -/
theorem spec_C3_cex :
    traverseView s3d = [⟨0, 100, true⟩] ∧ traverseView s3e ≠ traverseView s3d := by
  decide

/-- Claim C3, amended: `free_block` performs no handle validation and has no
failure outcome; releasing an already-released (and merge-absorbed) handle
runs the coalescing logic on the stale links and can change the block
sequence: in the double-release trace the stale release inflates the sole
free block from size 100 to size 160. -/
theorem spec_C3 :
    s3e = s3d.free_block 1 ∧
    traverseView s3d = [⟨0, 100, true⟩] ∧
    traverseView s3e = [⟨0, 160, true⟩] := by
  decide

/-- Claim C4, counterexample: construction with the non-positive capacity -5
does not fail: it produces an arena object holding one (degenerate) block of
size -5, so an arena is created. -/
theorem spec_C4_cex :
    (MemoryAllocator.init (-5)).blocks = [⟨0, -5, true, none, none⟩] ∧
    ¬ 0 < (getBlock (MemoryAllocator.init (-5)) 0).size := by
  decide

/-- Claim C4, amended: construction performs no validation of
`total_memory`: for every capacity, positive or not, it returns an arena
whose store holds exactly one free block starting at 0 with size equal to
the requested capacity, with that block as head. -/
theorem spec_C4 (tm : Int) :
    MemoryAllocator.init tm = ⟨tm, [⟨0, tm, true, none, none⟩], 0⟩ := rfl

/-- Claim C4, amended, witness at capacity 7. -/
theorem spec_C4_w :
    MemoryAllocator.init 7 = ⟨7, [⟨0, 7, true, none, none⟩], 0⟩ := spec_C4 7
